import Mathlib

/-!
Verification development for the event correlation and verification engine
of the mobiauto test-automation framework
(`src/mobiauto/network/event_verifier.py` and `src/mobiauto/network/events.py`).

The Python code manipulates untyped JSON values; we embed them as the mutual
inductive family `JVal`/`JList`/`JObj` (JSON numbers are modelled as integers;
floating point payload values are outside the scope of the verified claims).
Python's `json.loads` is modelled by an executable recursive-descent parser
`json_loads`; `json.dumps` / pydantic `model_dump_json` by executable
serializers.  Functions that in Python can raise are modelled with `Option` /
`Except`; functions whose Python termination is by decreasing input size are
modelled with an explicit fuel argument together with a proved stabilization
theorem showing the result is fuel-independent above the size bound.
-/

/- JSON-like value as handled by the Python code: `null`, booleans, integers,
strings, arrays and objects. -/
mutual
inductive JVal where
  | jnull
  | jbool (b : Bool)
  | jnum (n : Int)
  | jstr (s : String)
  | jarr (xs : JList)
  | jobj (kvs : JObj)
inductive JList where
  | nil
  | cons (v : JVal) (tl : JList)
inductive JObj where
  | nil
  | cons (k : String) (v : JVal) (tl : JObj)
end

/-- Convert a `JList` to a Lean `List` (used only to state properties). -/
def toListL : JList → List JVal
  | .nil => []
  | .cons v tl => v :: toListL tl

/-- Convert a `JObj` to a Lean association `List` (used only to state properties). -/
def toListO : JObj → List (String × JVal)
  | .nil => []
  | .cons k v tl => (k, v) :: toListO tl

/-- Dictionary lookup on a `JObj` (Python `d[k]` / `d.get(k)` on a dict;
objects built by the parser have distinct keys, mirroring Python dicts). -/
def jobjLookup : JObj → String → Option JVal
  | .nil, _ => none
  | .cons k v tl, key => if k == key then some v else jobjLookup tl key

/-- Key membership on a `JObj` (Python `k in d`). -/
def jobjHasKey : JObj → String → Bool
  | .nil, _ => false
  | .cons k _ tl, key => k == key || jobjHasKey tl key

/- Size measure on JSON values; a string counts its length so that a value
parsed out of a string is strictly smaller than the string (see
`parse_jval_size`).  Used for the fuel bounds of the matcher. -/
mutual
def jsize : JVal → Nat
  | .jnull => 1
  | .jbool _ => 1
  | .jnum _ => 1
  | .jstr s => s.length + 1
  | .jarr xs => 1 + jsizeL xs
  | .jobj kvs => 1 + jsizeO kvs
def jsizeL : JList → Nat
  | .nil => 0
  | .cons v tl => 1 + jsize v + jsizeL tl
def jsizeO : JObj → Nat
  | .nil => 0
  | .cons _ v tl => 1 + jsize v + jsizeO tl
end

/- ---------- model of Python `json.loads` ---------- -/

/-- JSON whitespace. -/
def isWsChar (c : Char) : Bool :=
  c == ' ' || c == '\n' || c == '\t' || c == '\r'

/-- Drop leading JSON whitespace. -/
def skipWs : List Char → List Char
  | [] => []
  | c :: cs => if isWsChar c then skipWs cs else c :: cs

/-- Match an expected literal character sequence (e.g. the tail of `null`). -/
def expectChars : List Char → List Char → Option (List Char)
  | [], cs => some cs
  | _ :: _, [] => none
  | e :: es, c :: cs => if c == e then expectChars es cs else none

/-- Decode one escape character; supports the escapes the serializers emit
(`\"`, `\\`, `\/`, `\n`, `\t`, `\r`); other escapes are not modelled. -/
def unescapeChar (e : Char) : Option Char :=
  if e == '"' then some '"'
  else if e == '\\' then some '\\'
  else if e == '/' then some '/'
  else if e == 'n' then some '\n'
  else if e == 't' then some '\t'
  else if e == 'r' then some '\r'
  else none

/-- Parse the body of a JSON string literal after the opening quote, up to and
including the closing quote. -/
def parseStrBody : List Char → Option (List Char × List Char)
  | [] => none
  | c :: cs =>
    if c == '"' then some ([], cs)
    else if c == '\\' then
      match cs with
      | [] => none
      | e :: cs2 =>
        match unescapeChar e with
        | none => none
        | some r =>
          match parseStrBody cs2 with
          | some (t, rest) => some (r :: t, rest)
          | none => none
    else
      match parseStrBody cs with
      | some (t, rest) => some (c :: t, rest)
      | none => none

/-- Take the maximal leading run of decimal digits. -/
def takeDigits : List Char → List Char × List Char
  | [] => ([], [])
  | c :: cs =>
    if c.isDigit then
      let (d, r) := takeDigits cs
      (c :: d, r)
    else ([], c :: cs)

/-- Decimal digits to a natural number. -/
def digitsToNatAux (acc : Nat) : List Char → Nat
  | [] => acc
  | c :: cs => digitsToNatAux (acc * 10 + (c.toNat - 48)) cs

/-- Combine an object member with the (already parsed) rest of the object,
keeping the last occurrence of a duplicated key, as a Python dict built by
`json.loads` does. -/
def objCombine (k : String) (v : JVal) (tl : JObj) : JObj :=
  if jobjHasKey tl k then tl else .cons k v tl

/- Mutual recursive-descent JSON parser (model of Python `json.loads`),
with a fuel argument for structural termination; `json_loads` supplies fuel
that is ample for the input length.  Fractions/exponents and `\u` escapes are
not modelled; an input using them fails to parse. -/
mutual
def parseVal : Nat → List Char → Option (JVal × List Char)
  | 0, _ => none
  | f+1, cs =>
    match skipWs cs with
    | [] => none
    | c :: cs1 =>
      if c == 'n' then
        match expectChars ['u', 'l', 'l'] cs1 with
        | some r => some (.jnull, r)
        | none => none
      else if c == 't' then
        match expectChars ['r', 'u', 'e'] cs1 with
        | some r => some (.jbool true, r)
        | none => none
      else if c == 'f' then
        match expectChars ['a', 'l', 's', 'e'] cs1 with
        | some r => some (.jbool false, r)
        | none => none
      else if c == '"' then
        match parseStrBody cs1 with
        | some (t, r) => some (.jstr (String.mk t), r)
        | none => none
      else if c == '[' then
        match parseArrItems f cs1 with
        | some (vs, r) => some (.jarr vs, r)
        | none => none
      else if c == '\x7b' then
        match parseObjItems f cs1 with
        | some (kvs, r) => some (.jobj kvs, r)
        | none => none
      else if c == '-' then
        match takeDigits cs1 with
        | ([], _) => none
        | (d :: ds, r) => some (.jnum (-(digitsToNatAux 0 (d :: ds) : Int)), r)
      else if c.isDigit then
        match takeDigits (c :: cs1) with
        | (ds, r) => some (.jnum (digitsToNatAux 0 ds), r)
      else none
def parseArrItems : Nat → List Char → Option (JList × List Char)
  | 0, _ => none
  | f+1, cs =>
    match skipWs cs with
    | ']' :: r => some (.nil, r)
    | cs2 =>
      match parseVal f cs2 with
      | some (v, r1) =>
        match parseArrTail f r1 with
        | some (vs, r2) => some (.cons v vs, r2)
        | none => none
      | none => none
def parseArrTail : Nat → List Char → Option (JList × List Char)
  | 0, _ => none
  | f+1, cs =>
    match skipWs cs with
    | ']' :: r => some (.nil, r)
    | ',' :: r =>
      match parseVal f r with
      | some (v, r1) =>
        match parseArrTail f r1 with
        | some (vs, r2) => some (.cons v vs, r2)
        | none => none
      | none => none
    | _ => none
def parseObjItems : Nat → List Char → Option (JObj × List Char)
  | 0, _ => none
  | f+1, cs =>
    match skipWs cs with
    | '\x7d' :: r => some (.nil, r)
    | cs2 =>
      match parseMember f cs2 with
      | some (k, v, r1) =>
        match parseObjTail f r1 with
        | some (vs, r2) => some (objCombine k v vs, r2)
        | none => none
      | none => none
def parseObjTail : Nat → List Char → Option (JObj × List Char)
  | 0, _ => none
  | f+1, cs =>
    match skipWs cs with
    | '\x7d' :: r => some (.nil, r)
    | ',' :: r =>
      match parseMember f r with
      | some (k, v, r1) =>
        match parseObjTail f r1 with
        | some (vs, r2) => some (objCombine k v vs, r2)
        | none => none
      | none => none
    | _ => none
def parseMember : Nat → List Char → Option (String × JVal × List Char)
  | 0, _ => none
  | f+1, cs =>
    match skipWs cs with
    | '"' :: cs1 =>
      match parseStrBody cs1 with
      | some (k, r1) =>
        match skipWs r1 with
        | ':' :: r2 =>
          match parseVal f r2 with
          | some (v, r3) => some (String.mk k, v, r3)
          | none => none
        | _ => none
      | none => none
    | _ => none
end

/-- Model of Python `json.loads`: parse the whole input (modulo surrounding
whitespace) or fail.  The fuel `2 * length + 2` is ample: every two parser
steps consume at least one input character. -/
def json_loads (s : String) : Option JVal :=
  match parseVal (2 * s.length + 2) s.data with
  | some (v, rest) =>
    match skipWs rest with
    | [] => some v
    | _ :: _ => none
  | none => none

/- ---------- serialization (models of `json.dumps` and pydantic `model_dump_json`) ---------- -/

/-- Escape a string for JSON output; quote and backslash escapes are modelled
(control-character escaping is not; no verified claim involves it). -/
def escapeChars : List Char → List Char
  | [] => []
  | c :: cs =>
    if c == '"' || c == '\\' then '\\' :: c :: escapeChars cs
    else c :: escapeChars cs

/-- A JSON string literal for `s`. -/
def jsonQuote (s : String) : String :=
  "\"" ++ String.mk (escapeChars s.data) ++ "\""

/- Model of Python `json.dumps(..., ensure_ascii=False)` with the default
separators `", "` and `": "`, as used by `JsonEventIngestor`. -/
mutual
def jsonDumps : JVal → String
  | .jnull => "null"
  | .jbool true => "true"
  | .jbool false => "false"
  | .jnum n => toString n
  | .jstr s => jsonQuote s
  | .jarr xs => "[" ++ jsonDumpsL xs ++ "]"
  | .jobj kvs => "\x7b" ++ jsonDumpsO kvs ++ "\x7d"
def jsonDumpsL : JList → String
  | .nil => ""
  | .cons v .nil => jsonDumps v
  | .cons v (.cons w tl) => jsonDumps v ++ ", " ++ jsonDumpsL (.cons w tl)
def jsonDumpsO : JObj → String
  | .nil => ""
  | .cons k v .nil => jsonQuote k ++ ": " ++ jsonDumps v
  | .cons k v (.cons k2 w tl) =>
    jsonQuote k ++ ": " ++ jsonDumps v ++ ", " ++ jsonDumpsO (.cons k2 w tl)
end

/- ---------- JSON matching utilities (`match_json_element` etc.) ---------- -/

/-- Python `str()` of a JSON primitive (`None`/`True`/`False`, decimal for
integers, identity on strings).  Only applied to primitives by the matcher. -/
def pyStr : JVal → String
  | .jnull => "None"
  | .jbool true => "True"
  | .jbool false => "False"
  | .jnum n => toString n
  | .jstr s => s
  | .jarr _ => ""
  | .jobj _ => ""

/-- Python `==` between JSON primitives (booleans compare equal to their
integer values, as in Python where `bool` is an `int` subclass). -/
def pyEqPrim : JVal → JVal → Bool
  | .jnull, .jnull => true
  | .jbool a, .jbool b => a == b
  | .jbool a, .jnum n => (if a then (1 : Int) else 0) == n
  | .jnum n, .jbool a => n == (if a then (1 : Int) else 0)
  | .jnum a, .jnum b => a == b
  | .jstr a, .jstr b => a == b
  | _, _ => false

/-- Whether a value is a Python primitive for the matcher's purposes
(`str | int | float | bool | None`, i.e. not a dict and not a list). -/
def isPrimB : JVal → Bool
  | .jarr _ => false
  | .jobj _ => false
  | _ => true

/-- Model of `search_element.startswith("~")` together with `search_element[1:]`. -/
def tildeNeedle (p : String) : Option String :=
  match p.data with
  | c :: rest => if c == '~' then some (String.mk rest) else none
  | [] => none

/-- List-of-characters prefix test. -/
def isPrefixChars : List Char → List Char → Bool
  | [], _ => true
  | _ :: _, [] => false
  | a :: as, b :: bs => a == b && isPrefixChars as bs

/-- List-of-characters substring test (needle occurs somewhere in the hay). -/
def containsSubChars (needle : List Char) : List Char → Bool
  | [] => needle.isEmpty
  | c :: rest => isPrefixChars needle (c :: rest) || containsSubChars needle rest

/-- Python's `needle in hay` on strings. -/
def strContains (hay needle : String) : Bool :=
  containsSubChars needle.data hay.data

/- Model of `match_json_element` with an explicit fuel argument; the helper
functions embed the Python `for`-loops over expected objects/arrays:
`matchObjFuel` is the loop over the expected object's pairs, `matchArrFuel`
the loop over the expected array, `matchAnyFuel` the inner
`any(match_json_element(ee, se) for ee in event_element)`.
`matchFuel_stable` below proves the result is fuel-independent above the
size bound, so `match_json_element` (which supplies ample fuel) is a faithful
embedding of the - terminating - Python recursion. -/
/-- The primitive-versus-primitive branch of `match_json_element`: wildcard
`"*"`, empty-string marker, `"~"` substring, stringified exact match for a
string pattern; Python `==` otherwise. -/
def matchPrim : JVal → JVal → Bool
  | ev, .jstr p =>
    if p == "*" then true
    else if p == "" then
      (match ev with
       | .jstr s => s == ""
       | _ => false)
    else
      match tildeNeedle p with
      | some needle =>
        (match ev with
         | .jstr s => strContains s needle
         | _ => false)
      | none => pyStr ev == p
  | ev, se => pyEqPrim ev se

mutual
def matchFuel : Nat → JVal → JVal → Bool
  | 0, _, _ => false
  | f+1, ev, se =>
    if isPrimB ev then
      if isPrimB se then matchPrim ev se
      else
        match ev with
        | .jstr s =>
          (match json_loads s with
           | some v => matchFuel f v se
           | none => false)
        | _ => false
    else
      match ev, se with
      | .jobj akvs, .jobj skvs => matchObjFuel f akvs skvs
      | .jarr axs, .jarr sxs => matchArrFuel f axs sxs
      | _, _ => false
def matchObjFuel : Nat → JObj → JObj → Bool
  | 0, _, _ => false
  | _+1, _, .nil => true
  | f+1, akvs, .cons k sv rest =>
    match jobjLookup akvs k with
    | none => false
    | some av => matchFuel f av sv && matchObjFuel f akvs rest
def matchArrFuel : Nat → JList → JList → Bool
  | 0, _, _ => false
  | _+1, _, .nil => true
  | f+1, axs, .cons se rest => matchAnyFuel f axs se && matchArrFuel f axs rest
def matchAnyFuel : Nat → JList → JVal → Bool
  | 0, _, _ => false
  | _+1, .nil, _ => false
  | f+1, .cons ee tl, se => matchFuel f ee se || matchAnyFuel f tl se
end

/-- Embedding of `match_json_element(event_element, search_element)`:
recursively match two JSON-like structures with the wildcard / empty-string /
substring / subset rules of `JsonMatchers`. -/
def match_json_element (ev se : JVal) : Bool :=
  matchFuel (jsize ev + jsize se + 1) ev se

/- Embedding of `find_key_value_in_tree(element, key, search_value)`:
depth-first search in a JSON tree for `key` whose value is matched by
`match_json_element`.  `findKVObj` / `findKVList` embed the loops over dict
items and list elements. -/
mutual
def find_key_value_in_tree : JVal → String → JVal → Bool
  | .jobj kvs, key, sv => findKVObj kvs key sv
  | .jarr xs, key, sv => findKVList xs key sv
  | _, _, _ => false
def findKVObj : JObj → String → JVal → Bool
  | .nil, _, _ => false
  | .cons k v tl, key, sv =>
    ((k == key) && match_json_element v sv) || find_key_value_in_tree v key sv ||
      findKVObj tl key sv
def findKVList : JList → String → JVal → Bool
  | .nil, _, _ => false
  | .cons v tl, key, sv => find_key_value_in_tree v key sv || findKVList tl key sv
end

/-- The `data` node located by `contains_json_data`: `body_obj["event"]["data"]`
when `body_obj["event"]` is a dict containing `"data"`, else `body_obj["data"]`
when present (`None` otherwise, which in Python skips the dedicated search). -/
def dataNode (bodyObj : JVal) : Option JVal :=
  match bodyObj with
  | .jobj kvs =>
    (match jobjLookup kvs ("event") with
     | some (.jobj ekvs) =>
       (match jobjLookup ekvs ("data") with
        | some d => some d
        | none => jobjLookup kvs ("data"))
     | _ => jobjLookup kvs ("data"))
  | _ => none

/-- One `(key, val)` pair of the search pattern is found: first in the
dedicated `data` node when there is one, otherwise anywhere in the body. -/
def pairFound (dataEl : Option JVal) (bodyObj : JVal) (k : String) (v : JVal) : Bool :=
  (match dataEl with
   | some d => find_key_value_in_tree d k v
   | none => false) ||
  find_key_value_in_tree bodyObj k v

/-- The loop of `contains_json_data` over the search pattern's pairs. -/
def containsAllPairs (dataEl : Option JVal) (bodyObj : JVal) : JObj → Bool
  | .nil => true
  | .cons k v tl => pairFound dataEl bodyObj k v && containsAllPairs dataEl bodyObj tl

/-- Embedding of `contains_json_data(event_json, search_json)`: parse the
serialized `EventData`, its string `body` field, and the search pattern; any
parsing failure (including a missing or non-string `body`, where Python's
subscript or `json.loads` raises inside the `try`) yields `false`; then every
key/value pair of the search object must be found by deep search. -/
def contains_json_data (event_json search_json : String) : Bool :=
  match json_loads event_json with
  | none => false
  | some evObj =>
    match evObj with
    | .jobj ekvs =>
      (match jobjLookup ekvs ("body") with
       | some (.jstr bodyStr) =>
         (match json_loads bodyStr with
          | none => false
          | some bodyObj =>
            match json_loads search_json with
            | none => false
            | some searchObj =>
              containsAllPairs (dataNode bodyObj) bodyObj
                (match searchObj with
                 | .jobj skvs => skvs
                 | _ => .nil))
       | _ => false)
    | _ => false

/- ---------- data model and `EventStore` (`events.py`) ---------- -/

/-- Model of `EventData`: detailed HTTP request information associated with an `Event`. -/
structure EventData where
  uri : String
  remote_address : String
  headers : List (String × List String)
  query : Option String
  body : String
deriving Repr, DecidableEq

/-- Model of `Event`: analytics or technical event captured during testing. -/
structure Event where
  event_time : String
  event_num : Int
  name : String
  data : Option EventData
deriving Repr, DecidableEq

/-- The values of one multi-valued header, as a compact JSON array body. -/
def serializeHeaderVals : List String → String
  | [] => ""
  | [v] => jsonQuote v
  | v :: w :: tl => jsonQuote v ++ "," ++ serializeHeaderVals (w :: tl)

/-- The members of the `headers` object, compactly serialized. -/
def serializeHeaders : List (String × List String) → String
  | [] => ""
  | [(k, vs)] => jsonQuote k ++ ":[" ++ serializeHeaderVals vs ++ "]"
  | (k, vs) :: h :: tl =>
    jsonQuote k ++ ":[" ++ serializeHeaderVals vs ++ "]," ++ serializeHeaders (h :: tl)

/-- Pydantic `EventData.model_dump_json(by_alias=True)`: the field order and
alias `remoteAddress` follow the model declaration; pydantic emits compact
separators. -/
def model_dump_json (d : EventData) : String :=
  "\x7b\"uri\":" ++ jsonQuote d.uri ++
  ",\"remoteAddress\":" ++ jsonQuote d.remote_address ++
  ",\"headers\":\x7b" ++ serializeHeaders d.headers ++ "\x7d" ++
  ",\"query\":" ++
  (match d.query with
   | none => "null"
   | some q => jsonQuote q) ++
  ",\"body\":" ++ jsonQuote d.body ++ "\x7d"

/-- Model of `EventStore` state: the append-only event log and the set of consumed
(`matched`) event numbers (insertion-ordered model of the Python `set[int]`). -/
structure EventStore where
  events : List Event
  matched : List Int
deriving Repr, DecidableEq

/-- Model of `EventStore._event_exists`: whether the log already holds this `event_num`. -/
def event_exists (es : List Event) (n : Int) : Bool :=
  es.any (fun e => e.event_num == n)

/-- The loop of `EventStore.add_events`: append each event whose `event_num`
is not yet in the log, in order; drop duplicates. -/
def addEventsList (es : List Event) : List Event → List Event
  | [] => es
  | e :: rest =>
    if event_exists es e.event_num then addEventsList es rest
    else addEventsList (es ++ [e]) rest

/-- Model of `EventStore.add_events`. -/
def add_events (st : EventStore) (new : List Event) : EventStore :=
  { st with events := addEventsList st.events new }

/-- Model of `EventStore.mark_event_as_matched` (the Python `set.add`, idempotent). -/
def mark_event_as_matched (st : EventStore) (n : Int) : EventStore :=
  { st with matched := if st.matched.contains n then st.matched else n :: st.matched }

/-- Model of `EventStore.is_event_already_matched`. -/
def is_event_already_matched (st : EventStore) (n : Int) : Bool :=
  st.matched.contains n

/- ---------- `SoftAssert` ---------- -/

/-- Model of `SoftAssert` state: the recorded failure messages, in order. -/
structure SoftAssert where
  failures : List String
deriving Repr, DecidableEq

/-- Python `sep.join(items)`. -/
def joinWith (sep : String) : List String → String
  | [] => ""
  | [x] => x
  | x :: y :: tl => x ++ sep ++ joinWith sep (y :: tl)

/-- The combined message raised by `SoftAssert.raise_if_any`. -/
def combinedFailureMsg (fs : List String) : String :=
  "Soft assertion failures (total " ++ toString fs.length ++ "):\n" ++
    joinWith ("\n") (fs.map (fun f => "- " ++ f))

/-- Model of `SoftAssert.raise_if_any`: `some msg` models raising `AssertionError(msg)`. -/
def raise_if_any (sa : SoftAssert) : Option String :=
  match sa.failures with
  | [] => none
  | _ :: _ => some (combinedFailureMsg sa.failures)

/-- Outcome of leaving a `SoftAssert` context. -/
inductive ExitResult where
  | propagated (exc : String)
  | raisedCombined (msg : String)
  | exitedClean
deriving Repr, DecidableEq

/-- Model of `SoftAssert.__exit__`: with an exception in flight it returns `False`
(the original exception propagates unchanged); otherwise it calls
`raise_if_any`, which raises the combined error when failures were recorded. -/
def softAssertExit (sa : SoftAssert) (exc : Option String) : ExitResult :=
  match exc with
  | some e => .propagated e
  | none =>
    match raise_if_any sa with
    | some msg => .raisedCombined msg
    | none => .exitedClean

/- ---------- `EventVerifier.check_has_event` ---------- -/

/-- Model of `ev.data.model_dump_json(by_alias=True) if ev.data is not None else None`. -/
def eventDataJson (ev : Event) : Option String :=
  match ev.data with
  | some d => some (model_dump_json d)
  | none => none

/-- The history-scan loop of `check_has_event`: walk the stored events in
arrival order; skip an already-consumed event when `consume` is requested;
with no pattern the first eligible event matches, otherwise the first whose
serialized data is non-empty and contains the pattern. -/
def scanHistory (matched : List Int) (consume : Bool) (pat : Option String) :
    List Event → Option Event
  | [] => none
  | ev :: rest =>
    if matched.contains ev.event_num && consume then scanHistory matched consume pat rest
    else
      match pat with
      | none => some ev
      | some p =>
        match eventDataJson ev with
        | some s =>
          if s.length != 0 && contains_json_data s p then some ev
          else scanHistory matched consume pat rest
        | none => scanHistory matched consume pat rest

/-- Embedding of `EventVerifier.check_has_event(event_data, ..., soft, consume)`
in the situation the verified claims describe: no new events arrive while the
call is in flight.  The history scan is exact; the polling phase then only ever
sees empty batches (`get_index_events` from the end of history), so the call
times out: `soft` yields `.ok false`, otherwise the `AssertionError` is
modelled by `.error`.  The returned store reflects `mark_event_as_matched`
on the matched event when `consume` is set. -/
def check_has_event (st : EventStore) (pat : Option String) (soft consume : Bool) :
    Except String Bool × EventStore :=
  match scanHistory st.matched consume pat st.events with
  | some ev =>
    (.ok true, if consume then mark_event_as_matched st ev.event_num else st)
  | none =>
    if soft then (.ok false, st)
    else (.error ("Expected event was not found within the timeout"), st)

/- ---------- background checks (`await_all_event_checks`) ---------- -/

/-- Verifier bookkeeping for background checks: thread handles (opaque ids)
and the shared list of recorded boolean results. -/
structure VerifierState where
  threads : List Nat
  results : List Bool
deriving Repr, DecidableEq

/-- Model of `[i for i, ok in enumerate(results) if not ok]`, starting at index `i`. -/
def failingIdxFrom (i : Nat) : List Bool → List Nat
  | [] => []
  | b :: rest =>
    if b then failingIdxFrom (i+1) rest else i :: failingIdxFrom (i+1) rest

/-- Model of `EventVerifier.await_all_event_checks`: join all threads (in this model
they have completed), clear the thread list, compute the failing indices,
clear the results list, and raise (`some indices`) iff any result was false. -/
def await_all_event_checks (vs : VerifierState) : Option (List Nat) × VerifierState :=
  let fails := failingIdxFrom 0 vs.results
  ((match fails with
    | [] => none
    | _ :: _ => some fails),
   { threads := [], results := [] })

/- ---------- `JsonEventIngestor` ---------- -/

/-- Python truthiness of a JSON value (`None`, `False`, `0`, `""`, `[]`, and
an empty dict are falsy). -/
def pyTruthy : JVal → Bool
  | .jnull => false
  | .jbool b => b
  | .jnum n => n != 0
  | .jstr s => s.length != 0
  | .jarr .nil => false
  | .jarr (.cons _ _) => true
  | .jobj .nil => false
  | .jobj (.cons _ _ _) => true

/-- Python `a or b` on JSON values. -/
def jvalOr (a b : JVal) : JVal :=
  if pyTruthy a then a else b

/-- Python `d.get(k)` on a dict, `None` when absent. -/
def dictGet (kvs : JObj) (k : String) : JVal :=
  match jobjLookup kvs k with
  | some v => v
  | none => .jnull

/-- Python `int(x)` on a JSON value; `none` models the raised
`TypeError`/`ValueError` on non-numeric values.  For strings: optional
surrounding whitespace and sign, then decimal digits. -/
def parseIntChars (cs : List Char) : Option Int :=
  match skipWs cs with
  | '-' :: rest =>
    (match takeDigits rest with
     | ([], _) => none
     | (d :: ds, r) =>
       if (skipWs r).isEmpty then some (-(digitsToNatAux 0 (d :: ds) : Int)) else none)
  | '+' :: rest =>
    (match takeDigits rest with
     | ([], _) => none
     | (d :: ds, r) =>
       if (skipWs r).isEmpty then some ((digitsToNatAux 0 (d :: ds) : Int)) else none)
  | cs1 =>
    (match takeDigits cs1 with
     | ([], _) => none
     | (d :: ds, r) =>
       if (skipWs r).isEmpty then some ((digitsToNatAux 0 (d :: ds) : Int)) else none)

/-- Python `int(x)` on a JSON value. -/
def pyInt : JVal → Option Int
  | .jbool b => some (if b then 1 else 0)
  | .jnum n => some n
  | .jstr s => parseIntChars s.data
  | _ => none

/-- Python `str(x)` on a JSON value; containers are rendered via the JSON
serializer as an approximation of Python `repr` (no verified claim depends on
the rendering of a container). -/
def pyStrAny : JVal → String
  | .jstr s => s
  | .jarr xs => jsonDumps (.jarr xs)
  | .jobj kvs => jsonDumps (.jobj kvs)
  | v => pyStr v

/-- Model of `item.get("data", {})`. -/
def getDataDefault (kvs : JObj) : JVal :=
  match jobjLookup kvs ("data") with
  | some v => v
  | none => .jobj .nil

/-- The envelope loop of `JsonEventIngestor.ingest` over `data["events"]`:
non-dict items are skipped (`continue`); a dict item is wrapped into
`{"event": {"data": ...}}` and becomes an `Event` whose other `EventData`
fields are empty; a raising `int(...)` aborts the rest of this payload's
items (the exception is caught at the payload level), keeping the events
accumulated so far. -/
def envLoop : JList → List Event → List Event
  | .nil, acc => acc
  | .cons item rest, acc =>
    match item with
    | .jobj ikvs =>
      let body := jsonDumps (.jobj (.cons ("event")
        (.jobj (.cons ("data") (getDataDefault ikvs) .nil)) .nil))
      (match pyInt (jvalOr (dictGet ikvs ("event_num"))
          (jvalOr (dictGet ikvs ("num")) (.jnum 0))) with
       | none => acc
       | some n =>
         envLoop rest (acc ++ [{
           event_time := pyStrAny (jvalOr (dictGet ikvs ("event_time"))
             (jvalOr (dictGet ikvs ("time")) (.jstr "")))
           event_num := n
           name := pyStrAny (jvalOr (dictGet ikvs ("name")) (.jstr ""))
           data := some { uri := "", remote_address := "", headers := [],
                          query := none, body := body } }]))
    | _ => envLoop rest acc

/-- Pydantic validation of a `str` field (no coercion from non-strings). -/
def asStr : JVal → Option String
  | .jstr s => some s
  | _ => none

/-- Pydantic validation of `list[str]`. -/
def asHeaderVals : JList → Option (List String)
  | .nil => some []
  | .cons (.jstr s) tl =>
    (match asHeaderVals tl with
     | some vs => some (s :: vs)
     | none => none)
  | .cons _ _ => none

/-- Pydantic validation of `dict[str, list[str]]`. -/
def asHeaders : JObj → Option (List (String × List String))
  | .nil => some []
  | .cons k (.jarr vs) tl =>
    (match asHeaderVals vs, asHeaders tl with
     | some ss, some hs => some ((k, ss) :: hs)
     | _, _ => none)
  | .cons _ _ _ => none

/-- Construction of `EventData(...)` inside `_parse_event_dict`, including the
pydantic field validation; `none` models a raised `ValidationError`. -/
def buildEventData (ed : JObj) : Option EventData :=
  match asStr (jvalOr (dictGet ed ("uri")) (jvalOr (dictGet ed ("path")) (.jstr ""))) with
  | none => none
  | some uri =>
    match asStr (jvalOr (dictGet ed ("remoteAddress"))
        (jvalOr (dictGet ed ("remote_address")) (.jstr ""))) with
    | none => none
    | some rem =>
      match jvalOr (dictGet ed ("headers")) (.jobj .nil) with
      | .jobj hkvs =>
        (match asHeaders hkvs with
         | none => none
         | some hs =>
           match dictGet ed ("query") with
           | .jnull =>
             (match asStr (jvalOr (dictGet ed ("body")) (.jstr ("\x7b\x7d"))) with
              | some bd => some { uri := uri, remote_address := rem, headers := hs,
                                  query := none, body := bd }
              | none => none)
           | .jstr q =>
             (match asStr (jvalOr (dictGet ed ("body")) (.jstr ("\x7b\x7d"))) with
              | some bd => some { uri := uri, remote_address := rem, headers := hs,
                                  query := some q, body := bd }
              | none => none)
           | _ => none)
      | _ => none

/-- Model of `JsonEventIngestor._parse_event_dict(d)`: `none` models a raised
exception (non-dict `d`, failed pydantic validation, or raising `int(...)`). -/
def _parse_event_dict (d : JVal) : Option Event :=
  match d with
  | .jobj kvs =>
    (match (match jobjLookup kvs ("data") with
            | some (.jobj ekvs) =>
              (match buildEventData ekvs with
               | some edv => some (some edv)
               | none => none)
            | _ => some none) with
     | none => none
     | some ed =>
       match pyInt (jvalOr (dictGet kvs ("event_num"))
           (jvalOr (dictGet kvs ("num")) (jvalOr (dictGet kvs ("id")) (.jnum 0)))) with
       | none => none
       | some n =>
         some { event_time := pyStrAny (jvalOr (dictGet kvs ("event_time"))
                  (jvalOr (dictGet kvs ("time")) (jvalOr (dictGet kvs ("timestamp")) (.jstr ""))))
                event_num := n
                name := pyStrAny (jvalOr (dictGet kvs ("name"))
                  (jvalOr (dictGet kvs ("method")) (.jstr "")))
                data := ed })
  | _ => none

/-- A raw payload handed to `JsonEventIngestor.ingest`: a string (to be JSON
parsed) or an already-parsed value. -/
inductive Payload where
  | raw (s : String)
  | parsed (v : JVal)

/-- One iteration of the payload loop of `ingest`: a payload that fails to
parse or normalize contributes nothing (the exception is logged and
swallowed); an envelope contributes its items via `envLoop`; any other value
goes through `_parse_event_dict`. -/
def ingestPayload (acc : List Event) (p : Payload) : List Event :=
  match (match p with
         | .raw s => json_loads s
         | .parsed v => some v) with
  | none => acc
  | some data =>
    match data with
    | .jobj kvs =>
      (match jobjLookup kvs ("events") with
       | some (.jarr items) => envLoop items acc
       | _ =>
         match _parse_event_dict data with
         | some ev => acc ++ [ev]
         | none => acc)
    | _ =>
      match _parse_event_dict data with
      | some ev => acc ++ [ev]
      | none => acc

/-- The within-call de-duplication by `event_num` (first occurrence wins). -/
def dedupByNum (seen : List Int) : List Event → List Event
  | [] => []
  | e :: rest =>
    if seen.contains e.event_num then dedupByNum seen rest
    else e :: dedupByNum (e.event_num :: seen) rest

/-- Model of `JsonEventIngestor.ingest(payloads)`: normalize every payload, then (when
any events were produced) de-duplicate by `event_num` and add to the store;
returns the unique list (the method's return value) and the new store. -/
def ingest (st : EventStore) (ps : List Payload) : List Event × EventStore :=
  match ps.foldl ingestPayload [] with
  | [] => ([], st)
  | e :: rest =>
    ((dedupByNum [] (e :: rest)), add_events st (dedupByNum [] (e :: rest)))

/-- The match condition `check_has_event` evaluates on one event for a given
pattern string: serialized data present, non-empty, and containing the
pattern (used to state arrival-order properties of the history scan). -/
def evMatches (p : String) (ev : Event) : Bool :=
  match eventDataJson ev with
  | some s => s.length != 0 && contains_json_data s p
  | none => false

/-- Whether a JSON value is an object (Python `isinstance(x, dict)`). -/
def isObjB : JVal → Bool
  | .jobj _ => true
  | _ => false

/- ====================== theorems ====================== -/

/-- Whitespace skipping never lengthens the input. -/
theorem skipWs_length (cs : List Char) : (skipWs cs).length ≤ cs.length := by
  induction cs with
  | nil => simp [skipWs]
  | cons c cs ih =>
    simp only [skipWs]
    split
    · exact Nat.le_trans ih (Nat.le_succ _)
    · simp

/-- Lemma: `expectChars` consumes exactly the expected characters. -/
theorem expectChars_length :
    ∀ es cs r, expectChars es cs = some r → r.length + es.length = cs.length := by
  intro es
  induction es with
  | nil =>
    intro cs r h
    simp [expectChars] at h
    simp [h]
  | cons e es ih =>
    intro cs r h
    cases cs with
    | nil => simp [expectChars] at h
    | cons c cs =>
      simp only [expectChars] at h
      split at h
      · have := ih cs r h
        simp [List.length_cons]
        omega
      · exact absurd h (by simp)


/-- A parsed string-literal body together with its closing quote is no longer
than the input. -/
theorem parseStrBody_length :
    ∀ cs t r, parseStrBody cs = some (t, r) → t.length + 1 + r.length ≤ cs.length := by
  intro cs
  induction cs using parseStrBody.induct with
  | case1 =>
    intro t r h
    rw [parseStrBody.eq_def] at h
    simp at h
  | case2 c cs hq =>
    intro t r h
    rw [parseStrBody.eq_def] at h
    simp [hq] at h
    obtain ⟨ht, hr⟩ := h
    subst ht
    subst hr
    simp only [List.length_cons, List.length_nil]
    omega
  | case3 c hq hb =>
    intro t r h
    rw [parseStrBody.eq_def] at h
    simp [hq, hb] at h
  | case4 c hq hb e cs2 hrepl =>
    intro t r h
    rw [parseStrBody.eq_def] at h
    simp [hq, hb, hrepl] at h
  | case5 c hq hb e cs2 rc hrepl t0 rest0 hrec ih =>
    intro t r h
    rw [parseStrBody.eq_def] at h
    simp [hq, hb, hrepl, hrec] at h
    obtain ⟨ht, hr⟩ := h
    subst ht
    subst hr
    have := ih t0 rest0 hrec
    simp only [List.length_cons, List.length_nil]
    omega
  | case6 c hq hb e cs2 rc hrepl hrec ih =>
    intro t r h
    rw [parseStrBody.eq_def] at h
    simp [hq, hb, hrepl, hrec] at h
  | case7 c cs hq hb t0 rest0 hrec ih =>
    intro t r h
    rw [parseStrBody.eq_def] at h
    simp [hq, hb, hrec] at h
    obtain ⟨ht, hr⟩ := h
    subst ht
    subst hr
    have := ih t0 rest0 hrec
    simp only [List.length_cons, List.length_nil]
    omega
  | case8 c cs hq hb hrec ih =>
    intro t r h
    rw [parseStrBody.eq_def] at h
    simp [hq, hb, hrec] at h

/-- Lemma: `takeDigits` splits the input. -/
theorem takeDigits_length :
    ∀ cs, (takeDigits cs).1.length + (takeDigits cs).2.length = cs.length := by
  intro cs
  induction cs with
  | nil => simp [takeDigits]
  | cons c cs ih =>
    simp only [takeDigits]
    split
    · simp only [List.length_cons]
      omega
    · simp

/-- Leading digit behavior of `takeDigits`. -/
theorem takeDigits_cons_digit (c : Char) (cs : List Char) (h : c.isDigit = true) :
    takeDigits (c :: cs) = (c :: (takeDigits cs).1, (takeDigits cs).2) := by
  simp [takeDigits, h]

/-- Lemma: `objCombine` never enlarges the size beyond the new member plus the rest. -/
theorem objCombine_size (k : String) (v : JVal) (tl : JObj) :
    jsizeO (objCombine k v tl) ≤ 1 + jsize v + jsizeO tl := by
  unfold objCombine
  split
  · omega
  · simp [jsizeO]

/-- Lemma: `skipWs` bound in the shape used below. -/
theorem skipWs_cons_length (cs cs1 : List Char) (c : Char) (h : skipWs cs = c :: cs1) :
    cs1.length + 1 ≤ cs.length := by
  have := skipWs_length cs
  rw [h] at this
  simp at this
  omega

/-- Every JSON value has positive size. -/
theorem jsize_pos (v : JVal) : 1 ≤ jsize v := by
  cases v <;> simp [jsize]

/-- Size soundness of the JSON parser: a parsed value (in the `jsize` measure)
never exceeds the number of characters consumed.  This is what makes the
matcher's recursion through `json_loads` on string payloads well founded. -/
theorem parserSize : ∀ f : Nat,
    (∀ cs v r, parseVal f cs = some (v, r) → jsize v + r.length ≤ cs.length) ∧
    (∀ cs vs r, parseArrItems f cs = some (vs, r) → jsizeL vs + 1 + r.length ≤ cs.length + 1) ∧
    (∀ cs vs r, parseArrTail f cs = some (vs, r) → jsizeL vs + 1 + r.length ≤ cs.length) ∧
    (∀ cs kvs r, parseObjItems f cs = some (kvs, r) → jsizeO kvs + 1 + r.length ≤ cs.length + 1) ∧
    (∀ cs kvs r, parseObjTail f cs = some (kvs, r) → jsizeO kvs + 1 + r.length ≤ cs.length) ∧
    (∀ cs k v r, parseMember f cs = some (k, v, r) → jsize v + r.length ≤ cs.length) := by
  intro f
  induction f with
  | zero =>
    refine ⟨?_, ?_, ?_, ?_, ?_, ?_⟩ <;> intro cs
    · intro v r h
      rw [parseVal.eq_def] at h
      simp at h
    · intro vs r h
      rw [parseArrItems.eq_def] at h
      simp at h
    · intro vs r h
      rw [parseArrTail.eq_def] at h
      simp at h
    · intro kvs r h
      rw [parseObjItems.eq_def] at h
      simp at h
    · intro kvs r h
      rw [parseObjTail.eq_def] at h
      simp at h
    · intro k v r h
      rw [parseMember.eq_def] at h
      simp at h
  | succ f ih =>
    obtain ⟨ihV, ihAI, ihAT, ihOI, ihOT, ihM⟩ := ih
    refine ⟨?_, ?_, ?_, ?_, ?_, ?_⟩
    · -- parseVal
      intro cs v r h
      rw [parseVal.eq_def] at h
      dsimp only at h
      cases hsw : skipWs cs with
      | nil => rw [hsw] at h; simp at h
      | cons c cs1 =>
        rw [hsw] at h
        dsimp only at h
        have hcs1 : cs1.length + 1 ≤ cs.length := skipWs_cons_length cs cs1 c hsw
        split at h
        · -- null
          cases hec : expectChars ['u', 'l', 'l'] cs1 with
          | none => rw [hec] at h; simp at h
          | some rr =>
            rw [hec] at h
            simp at h
            obtain ⟨hv, hr⟩ := h
            subst hv
            subst hr
            have := expectChars_length _ _ _ hec
            simp at this
            simp [jsize]
            omega
        · split at h
          · -- true
            cases hec : expectChars ['r', 'u', 'e'] cs1 with
            | none => rw [hec] at h; simp at h
            | some rr =>
              rw [hec] at h
              simp at h
              obtain ⟨hv, hr⟩ := h
              subst hv
              subst hr
              have := expectChars_length _ _ _ hec
              simp at this
              simp [jsize]
              omega
          · split at h
            · -- false
              cases hec : expectChars ['a', 'l', 's', 'e'] cs1 with
              | none => rw [hec] at h; simp at h
              | some rr =>
                rw [hec] at h
                simp at h
                obtain ⟨hv, hr⟩ := h
                subst hv
                subst hr
                have := expectChars_length _ _ _ hec
                simp at this
                simp [jsize]
                omega
            · split at h
              · -- string
                cases hps : parseStrBody cs1 with
                | none => rw [hps] at h; simp at h
                | some tr =>
                  obtain ⟨t, rr⟩ := tr
                  rw [hps] at h
                  simp at h
                  obtain ⟨hv, hr⟩ := h
                  subst hv
                  subst hr
                  have := parseStrBody_length _ _ _ hps
                  simp [jsize, String.length_mk]
                  omega
              · split at h
                · -- array
                  cases hpa : parseArrItems f cs1 with
                  | none => rw [hpa] at h; simp at h
                  | some vr =>
                    obtain ⟨vs, rr⟩ := vr
                    rw [hpa] at h
                    simp at h
                    obtain ⟨hv, hr⟩ := h
                    subst hv
                    subst hr
                    have := ihAI _ _ _ hpa
                    simp [jsize]
                    omega
                · split at h
                  · -- object
                    cases hpo : parseObjItems f cs1 with
                    | none => rw [hpo] at h; simp at h
                    | some vr =>
                      obtain ⟨kvs, rr⟩ := vr
                      rw [hpo] at h
                      simp at h
                      obtain ⟨hv, hr⟩ := h
                      subst hv
                      subst hr
                      have := ihOI _ _ _ hpo
                      simp [jsize]
                      omega
                  · split at h
                    · -- negative number
                      rcases htd : takeDigits cs1 with ⟨ds, rr⟩
                      rw [htd] at h
                      cases ds with
                      | nil => simp at h
                      | cons d ds =>
                        simp at h
                        obtain ⟨hv, hr⟩ := h
                        subst hv
                        subst hr
                        have := takeDigits_length cs1
                        rw [htd] at this
                        simp at this
                        simp [jsize]
                        omega
                    · split at h
                      · -- number
                        rename_i hdig
                        rw [takeDigits_cons_digit c cs1 hdig] at h
                        simp at h
                        obtain ⟨hv, hr⟩ := h
                        subst hv
                        subst hr
                        have := takeDigits_length cs1
                        simp [jsize]
                        omega
                      · simp at h
    · -- parseArrItems
      intro cs vs r h
      rw [parseArrItems.eq_def] at h
      dsimp only at h
      cases hsw : skipWs cs with
      | nil =>
        rw [hsw] at h
        dsimp only at h
        cases hpv : parseVal f [] with
        | none => rw [hpv] at h; simp at h
        | some vr =>
          obtain ⟨v0, r1⟩ := vr
          rw [hpv] at h
          have hv0 := ihV _ _ _ hpv
          have hp0 := jsize_pos v0
          simp at hv0
          omega
      | cons c cs1 =>
        rw [hsw] at h
        have hcs1 : cs1.length + 1 ≤ cs.length := skipWs_cons_length cs cs1 c hsw
        split at h
        · -- "]" case
          rename_i heq
          injection heq with hc hcs
          subst hcs
          simp at h
          obtain ⟨hv, hr⟩ := h
          subst hv
          subst hr
          simp [jsizeL]
          omega
        · -- value case
          cases hpv : parseVal f (c :: cs1) with
          | none => rw [hpv] at h; simp at h
          | some vr =>
            obtain ⟨v0, r1⟩ := vr
            rw [hpv] at h
            dsimp only at h
            cases hpt : parseArrTail f r1 with
            | none => rw [hpt] at h; simp at h
            | some vr2 =>
              obtain ⟨vs2, r2⟩ := vr2
              rw [hpt] at h
              simp at h
              obtain ⟨hv, hr⟩ := h
              subst hv
              subst hr
              have h1 := ihV _ _ _ hpv
              have h2 := ihAT _ _ _ hpt
              simp at h1
              simp [jsizeL]
              omega
    · -- parseArrTail
      intro cs vs r h
      rw [parseArrTail.eq_def] at h
      dsimp only at h
      cases hsw : skipWs cs with
      | nil => rw [hsw] at h; simp at h
      | cons c cs1 =>
        rw [hsw] at h
        have hcs1 : cs1.length + 1 ≤ cs.length := skipWs_cons_length cs cs1 c hsw
        split at h
        · rename_i rr heq
          injection heq with hc hcs
          subst hcs
          simp at h
          obtain ⟨hv, hr⟩ := h
          subst hv
          subst hr
          simp [jsizeL]
          omega
        · rename_i rr heq
          injection heq with hc hcs
          subst hcs
          cases hpv : parseVal f cs1 with
          | none => rw [hpv] at h; simp at h
          | some vr =>
            obtain ⟨v0, r1⟩ := vr
            rw [hpv] at h
            dsimp only at h
            cases hpt : parseArrTail f r1 with
            | none => rw [hpt] at h; simp at h
            | some vr2 =>
              obtain ⟨vs2, r2⟩ := vr2
              rw [hpt] at h
              simp at h
              obtain ⟨hv, hr⟩ := h
              subst hv
              subst hr
              have h1 := ihV _ _ _ hpv
              have h2 := ihAT _ _ _ hpt
              simp [jsizeL]
              omega
        · simp at h
    · -- parseObjItems
      intro cs kvs r h
      rw [parseObjItems.eq_def] at h
      dsimp only at h
      cases hsw : skipWs cs with
      | nil =>
        rw [hsw] at h
        dsimp only at h
        cases hpm : parseMember f [] with
        | none => rw [hpm] at h; simp at h
        | some kvr =>
          obtain ⟨k0, v0, r1⟩ := kvr
          rw [hpm] at h
          have hv0 := ihM _ _ _ _ hpm
          simp at hv0
          have : jsize v0 ≥ 1 := jsize_pos v0
          omega
      | cons c cs1 =>
        rw [hsw] at h
        have hcs1 : cs1.length + 1 ≤ cs.length := skipWs_cons_length cs cs1 c hsw
        split at h
        · rename_i heq
          injection heq with hc hcs
          subst hcs
          simp at h
          obtain ⟨hv, hr⟩ := h
          subst hv
          subst hr
          simp [jsizeO]
          omega
        · cases hpm : parseMember f (c :: cs1) with
          | none => rw [hpm] at h; simp at h
          | some kvr =>
            obtain ⟨k0, v0, r1⟩ := kvr
            rw [hpm] at h
            dsimp only at h
            cases hpt : parseObjTail f r1 with
            | none => rw [hpt] at h; simp at h
            | some vr2 =>
              obtain ⟨kvs2, r2⟩ := vr2
              rw [hpt] at h
              simp at h
              obtain ⟨hv, hr⟩ := h
              subst hv
              subst hr
              have h1 := ihM _ _ _ _ hpm
              have h2 := ihOT _ _ _ hpt
              have h3 := objCombine_size k0 v0 kvs2
              simp at h1
              omega
    · -- parseObjTail
      intro cs kvs r h
      rw [parseObjTail.eq_def] at h
      dsimp only at h
      cases hsw : skipWs cs with
      | nil => rw [hsw] at h; simp at h
      | cons c cs1 =>
        rw [hsw] at h
        have hcs1 : cs1.length + 1 ≤ cs.length := skipWs_cons_length cs cs1 c hsw
        split at h
        · rename_i rr heq
          injection heq with hc hcs
          subst hcs
          simp at h
          obtain ⟨hv, hr⟩ := h
          subst hv
          subst hr
          simp [jsizeO]
          omega
        · rename_i rr heq
          injection heq with hc hcs
          subst hcs
          cases hpm : parseMember f cs1 with
          | none => rw [hpm] at h; simp at h
          | some kvr =>
            obtain ⟨k0, v0, r1⟩ := kvr
            rw [hpm] at h
            dsimp only at h
            cases hpt : parseObjTail f r1 with
            | none => rw [hpt] at h; simp at h
            | some vr2 =>
              obtain ⟨kvs2, r2⟩ := vr2
              rw [hpt] at h
              simp at h
              obtain ⟨hv, hr⟩ := h
              subst hv
              subst hr
              have h1 := ihM _ _ _ _ hpm
              have h2 := ihOT _ _ _ hpt
              have h3 := objCombine_size k0 v0 kvs2
              omega
        · simp at h
    · -- parseMember
      intro cs k v r h
      rw [parseMember.eq_def] at h
      dsimp only at h
      cases hsw : skipWs cs with
      | nil => rw [hsw] at h; simp at h
      | cons c cs1 =>
        rw [hsw] at h
        have hcs1 : cs1.length + 1 ≤ cs.length := skipWs_cons_length cs cs1 c hsw
        split at h
        · rename_i heq
          injection heq with hc hcs
          subst hcs
          cases hps : parseStrBody cs1 with
          | none => rw [hps] at h; simp at h
          | some tr =>
            obtain ⟨t, r1⟩ := tr
            rw [hps] at h
            dsimp only at h
            have hsb := parseStrBody_length _ _ _ hps
            cases hsw2 : skipWs r1 with
            | nil => rw [hsw2] at h; simp at h
            | cons c2 r2 =>
              rw [hsw2] at h
              have hr2 : r2.length + 1 ≤ r1.length := skipWs_cons_length r1 r2 c2 hsw2
              split at h
              · rename_i heq2
                injection heq2 with hc2 hr2eq
                subst hr2eq
                cases hpv : parseVal f r2 with
                | none => rw [hpv] at h; simp at h
                | some vr =>
                  obtain ⟨v0, r3⟩ := vr
                  rw [hpv] at h
                  simp at h
                  obtain ⟨hk, hv, hr⟩ := h
                  subst hv
                  subst hr
                  have h1 := ihV _ _ _ hpv
                  omega
              · simp at h
        · simp at h

/-- A value produced by `json_loads` is no larger (in `jsize`) than the length
of the string it was parsed from. -/
theorem json_loads_size (s : String) (v : JVal) (h : json_loads s = some v) :
    jsize v ≤ s.length := by
  unfold json_loads at h
  cases hp : parseVal (2 * s.length + 2) s.data with
  | none => rw [hp] at h; simp at h
  | some vr =>
    obtain ⟨v0, rest⟩ := vr
    rw [hp] at h
    dsimp only at h
    cases hsw : skipWs rest with
    | nil =>
      rw [hsw] at h
      simp at h
      have hb := (parserSize (2 * s.length + 2)).1 s.data v0 rest hp
      have hd : s.data.length = s.length := rfl
      subst h
      omega
    | cons c cs1 =>
      rw [hsw] at h
      simp at h

/-- A value found by dict lookup is no larger than the object. -/
theorem jobjLookup_size :
    ∀ kvs k v, jobjLookup kvs k = some v → jsize v ≤ jsizeO kvs
  | .nil, k, v => by
    intro h
    simp [jobjLookup] at h
  | .cons k0 v0 tl, k, v => by
    intro h
    simp only [jobjLookup] at h
    split at h
    · simp at h
      subst h
      simp [jsizeO]
      omega
    · have := jobjLookup_size tl k v h
      simp [jsizeO]
      omega

/-- One-step fuel stabilization of the matcher: above the size bound, adding
one unit of fuel does not change any of the four mutual functions. -/
theorem matchStableStep : ∀ f : Nat,
    (∀ ev se, jsize ev + jsize se < f → matchFuel f ev se = matchFuel (f+1) ev se) ∧
    (∀ a s, jsizeO a + jsizeO s < f → matchObjFuel f a s = matchObjFuel (f+1) a s) ∧
    (∀ a s, jsizeL a + jsizeL s < f → matchArrFuel f a s = matchArrFuel (f+1) a s) ∧
    (∀ a se, jsizeL a + jsize se < f → matchAnyFuel f a se = matchAnyFuel (f+1) a se) := by
  intro f
  induction f with
  | zero =>
    refine ⟨?_, ?_, ?_, ?_⟩ <;> intro a b h <;> omega
  | succ f ih =>
    obtain ⟨ihM, ihO, ihA, ihY⟩ := ih
    refine ⟨?_, ?_, ?_, ?_⟩
    · intro ev se hlt
      rw [matchFuel.eq_def, matchFuel.eq_def]
      dsimp only
      by_cases hpe : isPrimB ev = true
      · by_cases hps : isPrimB se = true
        · simp [hpe, hps]
        · simp only [hpe, hps, if_true, if_false, Bool.false_eq_true]
          cases ev with
          | jstr s =>
            dsimp only
            cases hjl : json_loads s with
            | none => rfl
            | some v =>
              dsimp only
              have hsz := json_loads_size s v hjl
              have hss : jsize (JVal.jstr s) = s.length + 1 := rfl
              exact ihM v se (by rw [hss] at hlt; omega)
          | jnull => rfl
          | jbool b => rfl
          | jnum n => rfl
          | jarr xs => simp [isPrimB] at hpe
          | jobj kvs => simp [isPrimB] at hpe
      · simp only [hpe, Bool.false_eq_true, if_false]
        cases ev with
        | jarr axs =>
          cases se with
          | jarr sxs =>
            dsimp only
            have h1 : jsize (JVal.jarr axs) = 1 + jsizeL axs := rfl
            have h2 : jsize (JVal.jarr sxs) = 1 + jsizeL sxs := rfl
            exact ihA axs sxs (by rw [h1, h2] at hlt; omega)
          | jnull => rfl
          | jbool b => rfl
          | jnum n => rfl
          | jstr s => rfl
          | jobj kvs => rfl
        | jobj akvs =>
          cases se with
          | jobj skvs =>
            dsimp only
            have h1 : jsize (JVal.jobj akvs) = 1 + jsizeO akvs := rfl
            have h2 : jsize (JVal.jobj skvs) = 1 + jsizeO skvs := rfl
            exact ihO akvs skvs (by rw [h1, h2] at hlt; omega)
          | jnull => rfl
          | jbool b => rfl
          | jnum n => rfl
          | jstr s => rfl
          | jarr xs => rfl
        | jnull => simp [isPrimB] at hpe
        | jbool b => simp [isPrimB] at hpe
        | jnum n => simp [isPrimB] at hpe
        | jstr s => simp [isPrimB] at hpe
    · intro a s hlt
      rw [matchObjFuel.eq_def, matchObjFuel.eq_def]
      cases s with
      | nil => rfl
      | cons k sv rest =>
        dsimp only
        cases hlk : jobjLookup a k with
        | none => rfl
        | some av =>
          dsimp only
          have hsz := jobjLookup_size a k av hlk
          have h1 : jsizeO (JObj.cons k sv rest) = 1 + jsize sv + jsizeO rest := rfl
          rw [h1] at hlt
          rw [ihM av sv (by omega), ihO a rest (by omega)]
    · intro a s hlt
      rw [matchArrFuel.eq_def, matchArrFuel.eq_def]
      cases s with
      | nil => rfl
      | cons se rest =>
        dsimp only
        have h1 : jsizeL (JList.cons se rest) = 1 + jsize se + jsizeL rest := rfl
        rw [h1] at hlt
        have hsp := jsize_pos se
        rw [ihY a se (by omega), ihA a rest (by omega)]
    · intro a se hlt
      rw [matchAnyFuel.eq_def, matchAnyFuel.eq_def]
      cases a with
      | nil => rfl
      | cons ee tl =>
        dsimp only
        have h1 : jsizeL (JList.cons ee tl) = 1 + jsize ee + jsizeL tl := rfl
        rw [h1] at hlt
        rw [ihM ee se (by omega), ihY tl se (by omega)]

/-- Fuel stabilization of the matcher: any two fuel amounts above the size
bound give the same result. -/
theorem matchFuel_stable :
    ∀ g f ev se, jsize ev + jsize se < f → f ≤ g → matchFuel f ev se = matchFuel g ev se := by
  intro g
  induction g with
  | zero =>
    intro f ev se h1 h2
    have : f = 0 := by omega
    subst this
    rfl
  | succ g ihg =>
    intro f ev se h1 h2
    rcases Nat.lt_or_ge f (g+1) with hcase | hcase
    · have hf : f ≤ g := by omega
      rw [ihg f ev se h1 hf]
      exact (matchStableStep g).1 ev se (by omega)
    · have : f = g + 1 := by omega
      subst this
      rfl

/-- Above the size bound, `matchFuel` computes `match_json_element`: the
fuelled embedding is a faithful model of the terminating Python recursion. -/
theorem matchFuel_eq_match_json_element (f : Nat) (ev se : JVal)
    (h : jsize ev + jsize se < f) : matchFuel f ev se = match_json_element ev se := by
  unfold match_json_element
  rcases Nat.le_total f (jsize ev + jsize se + 1) with hle | hle
  · exact matchFuel_stable (jsize ev + jsize se + 1) f ev se h hle
  · exact (matchFuel_stable f (jsize ev + jsize se + 1) ev se (by omega) hle).symm

/-- On two arrays, `match_json_element` is the array loop at ample fuel. -/
theorem match_json_element_arr (axs sxs : JList) :
    match_json_element (.jarr axs) (.jarr sxs) =
      matchArrFuel (jsize (JVal.jarr axs) + jsize (JVal.jarr sxs)) axs sxs := by
  unfold match_json_element
  rw [matchFuel.eq_def]
  dsimp only
  simp [isPrimB]

/-- Lemma: `matchAnyFuel` (above the size bound) decides "some element of the actual
array matches". -/
theorem matchAnyFuel_iff : ∀ axs se f, jsizeL axs + jsize se < f →
    (matchAnyFuel f axs se = true ↔
      ∃ ae ∈ toListL axs, match_json_element ae se = true)
  | .nil, se, f => by
    intro hf
    cases f with
    | zero => omega
    | succ f =>
      rw [matchAnyFuel.eq_def]
      simp [toListL]
  | .cons ee tl, se, f => by
    intro hf
    cases f with
    | zero => omega
    | succ f =>
      rw [matchAnyFuel.eq_def]
      dsimp only
      have h1 : jsizeL (JList.cons ee tl) = 1 + jsize ee + jsizeL tl := rfl
      rw [h1] at hf
      have hm : matchFuel f ee se = match_json_element ee se :=
        matchFuel_eq_match_json_element f ee se (by omega)
      have hrec := matchAnyFuel_iff tl se f (by omega)
      rw [Bool.or_eq_true, hm, hrec]
      simp [toListL]

/-- Lemma: `matchArrFuel` (above the size bound) decides "every element of the
expected array is matched by some element of the actual array". -/
theorem matchArrFuel_iff : ∀ sxs axs f, jsizeL axs + jsizeL sxs < f →
    (matchArrFuel f axs sxs = true ↔
      ∀ se ∈ toListL sxs, ∃ ae ∈ toListL axs, match_json_element ae se = true)
  | .nil, axs, f => by
    intro hf
    cases f with
    | zero => omega
    | succ f =>
      rw [matchArrFuel.eq_def]
      simp [toListL]
  | .cons se0 rest, axs, f => by
    intro hf
    cases f with
    | zero => omega
    | succ f =>
      rw [matchArrFuel.eq_def]
      dsimp only
      have h1 : jsizeL (JList.cons se0 rest) = 1 + jsize se0 + jsizeL rest := rfl
      rw [h1] at hf
      have hany := matchAnyFuel_iff axs se0 f (by omega)
      have hrec := matchArrFuel_iff rest axs f (by omega)
      rw [Bool.and_eq_true, hany, hrec]
      simp [toListL]

/-- C2: totality of the matcher.  `match_json_element` is a total function on
JSON-like values (the fuelled computation stabilizes at every input: any fuel
above the size bound, in particular the ample fuel the wrapper supplies,
yields the same boolean); a string payload that does not parse as JSON matched
against a structured pattern yields `false` rather than an error, and
mismatched type combinations (non-string primitive vs. container, container
vs. primitive, array vs. object) also yield `false`. -/
theorem claim2_matcher_total :
    (∀ ev se f, jsize ev + jsize se < f → matchFuel f ev se = match_json_element ev se) ∧
    (∀ s p, isPrimB p = false → json_loads s = none →
      match_json_element (.jstr s) p = false) ∧
    (∀ n p, isPrimB p = false → match_json_element (.jnum n) p = false) ∧
    (∀ axs kvs, match_json_element (.jarr axs) (.jobj kvs) = false ∧
      match_json_element (.jobj kvs) (.jarr axs) = false) ∧
    (∀ a p, isPrimB a = false → isPrimB p = true → match_json_element a p = false) := by
  refine ⟨?_, ?_, ?_, ?_, ?_⟩
  · intro ev se f h
    exact matchFuel_eq_match_json_element f ev se h
  · intro s p hp hjl
    unfold match_json_element
    rw [matchFuel.eq_def]
    dsimp only
    have h1 : isPrimB (JVal.jstr s) = true := rfl
    simp [h1, hp, hjl]
  · intro n p hp
    unfold match_json_element
    rw [matchFuel.eq_def]
    dsimp only
    have h1 : isPrimB (JVal.jnum n) = true := rfl
    simp [h1, hp]
  · intro axs kvs
    constructor
    · unfold match_json_element
      rw [matchFuel.eq_def]
      dsimp only
      simp [isPrimB]
    · unfold match_json_element
      rw [matchFuel.eq_def]
      dsimp only
      simp [isPrimB]
  · intro a p ha hp
    unfold match_json_element
    rw [matchFuel.eq_def]
    dsimp only
    cases a with
    | jnull => simp [isPrimB] at ha
    | jbool b => simp [isPrimB] at ha
    | jnum n => simp [isPrimB] at ha
    | jstr s => simp [isPrimB] at ha
    | jarr xs =>
      cases p <;> simp [isPrimB] at hp ⊢
    | jobj kvs =>
      cases p <;> simp [isPrimB] at hp ⊢

/-- Witness for C2 at concrete inputs. -/
theorem claim2_matcher_total_witness :
    matchFuel 9 (.jnum 1) (.jnum 1) = match_json_element (.jnum 1) (.jnum 1) ∧
    match_json_element (.jstr "nope") (.jarr .nil) = false ∧
    match_json_element (.jnum 7) (.jobj .nil) = false ∧
    match_json_element (.jarr .nil) (.jobj .nil) = false ∧
    match_json_element (.jobj .nil) (.jnum 3) = false :=
  ⟨claim2_matcher_total.1 (.jnum 1) (.jnum 1) 9 (by decide),
   claim2_matcher_total.2.1 ("nope") (.jarr .nil) (by decide) (by rfl),
   claim2_matcher_total.2.2.1 7 (.jobj .nil) (by decide),
   (claim2_matcher_total.2.2.2.1 .nil .nil).1,
   claim2_matcher_total.2.2.2.2 (.jobj .nil) (.jnum 3) (by decide) (by decide)⟩

/-- C3: array matching is "each expected element found somewhere",
order- and multiplicity-independent; in particular `match([1,2,3],[2])` holds,
`match([1,2,3],[4])` fails, and `match([1,2],[1,1])` holds (one actual element
may satisfy several pattern elements). -/
theorem claim3_array_each_found :
    (∀ axs sxs, match_json_element (.jarr axs) (.jarr sxs) = true ↔
      ∀ se ∈ toListL sxs, ∃ ae ∈ toListL axs, match_json_element ae se = true) ∧
    match_json_element
      (.jarr (.cons (.jnum 1) (.cons (.jnum 2) (.cons (.jnum 3) .nil))))
      (.jarr (.cons (.jnum 2) .nil)) = true ∧
    match_json_element
      (.jarr (.cons (.jnum 1) (.cons (.jnum 2) (.cons (.jnum 3) .nil))))
      (.jarr (.cons (.jnum 4) .nil)) = false ∧
    match_json_element
      (.jarr (.cons (.jnum 1) (.cons (.jnum 2) .nil)))
      (.jarr (.cons (.jnum 1) (.cons (.jnum 1) .nil))) = true := by
  refine ⟨?_, by decide, by decide, by decide⟩
  intro axs sxs
  rw [match_json_element_arr]
  refine matchArrFuel_iff sxs axs _ ?_
  have h1 : jsize (JVal.jarr axs) = 1 + jsizeL axs := rfl
  have h2 : jsize (JVal.jarr sxs) = 1 + jsizeL sxs := rfl
  omega

/-- Witness for C3: the characterization applied at a concrete pair. -/
theorem claim3_array_each_found_witness :
    ∃ ae ∈ toListL (.cons (.jnum 1) (.cons (.jnum 2) (.cons (.jnum 3) JList.nil))),
      match_json_element ae (.jnum 2) = true :=
  (claim3_array_each_found.1
      (.cons (.jnum 1) (.cons (.jnum 2) (.cons (.jnum 3) .nil)))
      (.cons (.jnum 2) .nil)).mp (by decide) (.jnum 2) (by simp [toListL])

/-- The loop of `contains_json_data` succeeds iff every pair is found. -/
theorem containsAllPairs_iff :
    ∀ kvs dEl bodyObj, containsAllPairs dEl bodyObj kvs = true ↔
      ∀ kv ∈ toListO kvs, pairFound dEl bodyObj kv.1 kv.2 = true
  | .nil, dEl, bodyObj => by
    simp [containsAllPairs, toListO]
  | .cons k v tl, dEl, bodyObj => by
    rw [containsAllPairs]
    rw [Bool.and_eq_true]
    rw [containsAllPairs_iff tl dEl bodyObj]
    simp [toListO]

/-- The serialized `EventData` JSON is never the empty string (its length is
at least that of its leading literal). -/
theorem model_dump_json_length (d : EventData) : (model_dump_json d).length ≠ 0 := by
  unfold model_dump_json
  have h7 : ("\x7b\"uri\":").length = 7 := rfl
  simp only [String.length_append]
  omega

/-- Characterization of `contains_json_data` (shared helper): it is true
exactly when all three payloads parse and every pattern pair is found. -/
theorem contains_json_data_iff :
    ∀ ej sj, contains_json_data ej sj = true ↔
      ∃ ekvs bs bodyObj sv,
        json_loads ej = some (.jobj ekvs) ∧
        jobjLookup ekvs ("body") = some (.jstr bs) ∧
        json_loads bs = some bodyObj ∧
        json_loads sj = some sv ∧
        ∀ skvs, sv = JVal.jobj skvs →
          ∀ kv ∈ toListO skvs, pairFound (dataNode bodyObj) bodyObj kv.1 kv.2 = true := by
  intro ej sj
  unfold contains_json_data
  cases hej : json_loads ej with
  | none => simp [hej]
  | some evObj =>
    cases evObj with
    | jobj ekvs =>
      cases hbody : jobjLookup ekvs ("body") with
      | none => simp [hej, hbody]
      | some bodyVal =>
        cases bodyVal with
        | jstr bs =>
          cases hbs : json_loads bs with
          | none => simp [hej, hbody, hbs]
          | some bodyObj =>
            cases hsj : json_loads sj with
            | none => simp [hej, hbody, hbs, hsj]
            | some sv =>
              dsimp only
              rw [hbody]
              dsimp only
              rw [hbs]
              dsimp only
              constructor
              · intro hall
                refine ⟨ekvs, bs, bodyObj, sv, rfl, hbody, hbs, rfl, ?_⟩
                intro skvs heq kv hkv
                subst heq
                have hall' : containsAllPairs (dataNode bodyObj) bodyObj skvs = true := hall
                exact (containsAllPairs_iff skvs _ _).mp hall' kv hkv
              · rintro ⟨ekvs', bs', bodyObj', sv', he, hb, hbo, hs, hallp⟩
                injection he with he1
                injection he1 with he2
                subst he2
                rw [hbody] at hb
                injection hb with hb1
                injection hb1 with hb2
                subst hb2
                rw [hbs] at hbo
                injection hbo with hbo1
                subst hbo1
                injection hs with hs1
                subst hs1
                cases sv with
                | jobj skvs =>
                  exact (containsAllPairs_iff skvs _ _).mpr (hallp skvs rfl)
                | jnull => rfl
                | jbool b => rfl
                | jnum n => rfl
                | jstr s => rfl
                | jarr xs => rfl
        | jnull => simp [hej, hbody]
        | jbool b => simp [hej, hbody]
        | jnum n => simp [hej, hbody]
        | jarr xs => simp [hej, hbody]
        | jobj kvs2 => simp [hej, hbody]
    | jnull => simp [hej]
    | jbool b => simp [hej]
    | jnum n => simp [hej]
    | jstr s => simp [hej]
    | jarr xs => simp [hej]

/-- C4: `contains_json_data` returns true exactly when the event JSON parses
to an object whose `body` string parses as JSON, the search JSON parses, and
(when the parsed pattern is an object) every one of its key/value pairs is
found by deep search in the located `data` node or anywhere in the body;
consequently it returns false whenever any of these parses fails or any
required pair is absent. -/
theorem claim4_contains_conjunction :
    ∀ ej sj, contains_json_data ej sj = true ↔
      ∃ ekvs bs bodyObj sv,
        json_loads ej = some (.jobj ekvs) ∧
        jobjLookup ekvs ("body") = some (.jstr bs) ∧
        json_loads bs = some bodyObj ∧
        json_loads sj = some sv ∧
        ∀ skvs, sv = JVal.jobj skvs →
          ∀ kv ∈ toListO skvs, pairFound (dataNode bodyObj) bodyObj kv.1 kv.2 = true :=
  contains_json_data_iff

/-- The history scan of `check_has_event`, on a store with no consumed events,
returns the first event (in arrival order) whose serialized data contains the
pattern, regardless of the `consume` flag. -/
theorem scanHistory_first :
    ∀ (es1 : List Event) (ev : Event) (es2 : List Event) (p : String) (c : Bool),
      (∀ x ∈ es1, evMatches p x = false) → evMatches p ev = true →
      scanHistory [] c (some p) (es1 ++ ev :: es2) = some ev := by
  intro es1
  induction es1 with
  | nil =>
    intro ev es2 p c h1 h2
    unfold evMatches at h2
    cases hed : eventDataJson ev with
    | none => rw [hed] at h2; simp at h2
    | some s =>
      rw [hed] at h2
      dsimp only at h2
      simp only [List.nil_append]
      rw [scanHistory]
      simp [hed, h2]
  | cons x rest ih =>
    intro ev es2 p c h1 h2
    have hx := h1 x (List.mem_cons_self x rest)
    unfold evMatches at hx
    rw [List.cons_append, scanHistory]
    cases hed : eventDataJson x with
    | none =>
      simp only [hed]
      simp only [List.contains_nil, Bool.false_and, Bool.false_eq_true, if_false]
      exact ih ev es2 p c (fun y hy => h1 y (List.mem_cons_of_mem x hy)) h2
    | some s =>
      rw [hed] at hx
      dsimp only at hx
      simp only [hed]
      simp only [List.contains_nil, Bool.false_and, Bool.false_eq_true, if_false, hx]
      exact ih ev es2 p c (fun y hy => h1 y (List.mem_cons_of_mem x hy)) h2

/-- Shared helper: with nothing consumed, `check_has_event` succeeds on the
first matching event in arrival order and (with `consume`) marks exactly it. -/
theorem check_first_match (es1 es2 : List Event) (ev : Event) (p : String) (soft : Bool)
    (h1 : ∀ x ∈ es1, evMatches p x = false) (h2 : evMatches p ev = true) :
    (check_has_event ⟨es1 ++ ev :: es2, []⟩ (some p) soft true).1 = .ok true ∧
    (check_has_event ⟨es1 ++ ev :: es2, []⟩ (some p) soft true).2 =
      ⟨es1 ++ ev :: es2, [ev.event_num]⟩ := by
  have hs := scanHistory_first es1 ev es2 p true h1 h2
  unfold check_has_event
  simp [hs, mark_event_as_matched]

/-- C6: arrival-order precedence.  When the store holds (in arrival order)
events `es1 ++ ev :: es2` with nothing consumed, none of the earlier `es1`
matching the pattern and `ev` matching it, `check_has_event` succeeds on `ev`
— the earliest-arrived match — and (with `consume`) marks exactly `ev`'s
number, never a later match. -/
theorem claim6_arrival_order (es1 es2 : List Event) (ev : Event) (p : String) (soft : Bool)
    (h1 : ∀ x ∈ es1, evMatches p x = false) (h2 : evMatches p ev = true) :
    (check_has_event ⟨es1 ++ ev :: es2, []⟩ (some p) soft true).1 = .ok true ∧
    (check_has_event ⟨es1 ++ ev :: es2, []⟩ (some p) soft true).2 =
      ⟨es1 ++ ev :: es2, [ev.event_num]⟩ :=
  check_first_match es1 es2 ev p soft h1 h2

/-- The condition `check_has_event` evaluates holds for an event whose data
serializes to a string containing the pattern. -/
theorem evMatches_of_contains (ev : Event) (d : EventData) (p : String)
    (hd : ev.data = some d) (hc : contains_json_data (model_dump_json d) p = true) :
    evMatches p ev = true := by
  unfold evMatches
  simp only [eventDataJson, hd]
  have hlen : ((model_dump_json d).length != 0) = true := by
    simp [model_dump_json_length d]
  simp [hlen, hc]

/-- C1: consume-once semantics of `check_has_event`.  On a store holding
exactly one event whose serialized data contains the pattern and with nothing
yet consumed: the first call with `consume` succeeds and marks the event; a
second call with `consume` (no new events arriving, so the polling phase times
out) returns `false` when soft and raises otherwise; a second call with
`consume := false` succeeds again on the same event and leaves the store
unchanged. -/
theorem claim1_consume_once (ev : Event) (d : EventData) (p : String) (s1 s2 : Bool)
    (hd : ev.data = some d)
    (hc : contains_json_data (model_dump_json d) p = true) :
    (check_has_event ⟨[ev], []⟩ (some p) s1 true).1 = .ok true ∧
    (check_has_event ⟨[ev], []⟩ (some p) s1 true).2 = ⟨[ev], [ev.event_num]⟩ ∧
    (check_has_event ⟨[ev], [ev.event_num]⟩ (some p) true true).1 = .ok false ∧
    (check_has_event ⟨[ev], [ev.event_num]⟩ (some p) false true).1 =
      .error ("Expected event was not found within the timeout") ∧
    (check_has_event ⟨[ev], [ev.event_num]⟩ (some p) s2 false).1 = .ok true ∧
    (check_has_event ⟨[ev], [ev.event_num]⟩ (some p) s2 false).2 =
      ⟨[ev], [ev.event_num]⟩ := by
  have hm : evMatches p ev = true := evMatches_of_contains ev d p hd hc
  have hs1 : scanHistory [] true (some p) [ev] = some ev := by
    have := scanHistory_first [] ev [] p true (by simp) hm
    simpa using this
  have hskip : scanHistory [ev.event_num] true (some p) [ev] = none := by
    rw [scanHistory]
    simp [scanHistory]
  have hnoc : scanHistory [ev.event_num] false (some p) [ev] = some ev := by
    unfold evMatches at hm
    rw [scanHistory]
    cases hed : eventDataJson ev with
    | none => rw [hed] at hm; simp at hm
    | some s =>
      rw [hed] at hm
      dsimp only at hm
      simp [hed, hm]
  refine ⟨?_, ?_, ?_, ?_, ?_, ?_⟩
  · unfold check_has_event
    simp [hs1]
  · unfold check_has_event
    simp [hs1, mark_event_as_matched]
  · unfold check_has_event
    simp [hskip]
  · unfold check_has_event
    simp [hskip]
  · unfold check_has_event
    simp [hnoc]
  · unfold check_has_event
    simp [hnoc]

/-- C10 (implicit): a valid-JSON non-object pattern matches vacuously.  When
the serialized event data parses to an object with a string `body` that itself
parses, and the pattern string parses to a non-object JSON value, the
key/value iteration of `contains_json_data` is empty, so the check returns
true; consequently `check_has_event` with such a pattern accepts (and, with
`consume`, marks) the first stored event with parseable data instead of
rejecting the pattern as malformed. -/
theorem claim10_nonobject_pattern (d : EventData) (ev : Event) (rest : List Event)
    (soft : Bool) (sj : String) (ekvs : JObj) (bs : String) (bodyObj sv : JVal)
    (hd : ev.data = some d)
    (h1 : json_loads (model_dump_json d) = some (.jobj ekvs))
    (h2 : jobjLookup ekvs ("body") = some (.jstr bs))
    (h3 : json_loads bs = some bodyObj)
    (h4 : json_loads sj = some sv)
    (h5 : isObjB sv = false) :
    contains_json_data (model_dump_json d) sj = true ∧
    (check_has_event ⟨ev :: rest, []⟩ (some sj) soft true).1 = .ok true ∧
    (check_has_event ⟨ev :: rest, []⟩ (some sj) soft true).2 =
      ⟨ev :: rest, [ev.event_num]⟩ := by
  have hcont : contains_json_data (model_dump_json d) sj = true := by
    refine (contains_json_data_iff _ _).mpr ⟨ekvs, bs, bodyObj, sv, h1, h2, h3, h4, ?_⟩
    intro skvs heq
    subst heq
    simp [isObjB] at h5
  have hck := check_first_match [] rest ev sj soft (by simp)
    (evMatches_of_contains ev d sj hd hcont)
  simp only [List.nil_append] at hck
  exact ⟨hcont, hck.1, hck.2⟩

set_option maxRecDepth 100000 in
/-- Witness for C1 at a concrete store and pattern. -/
theorem claim1_consume_once_witness :
    (check_has_event
      ⟨[{ event_time := "t", event_num := 1, name := "E",
          data := some { uri := "", remote_address := "", headers := [], query := none,
                         body := "\x7b\"a\": 1\x7d" } }], []⟩
      (some ("\x7b\"a\": 1\x7d")) false true).1 = .ok true ∧
    (check_has_event
      ⟨[{ event_time := "t", event_num := 1, name := "E",
          data := some { uri := "", remote_address := "", headers := [], query := none,
                         body := "\x7b\"a\": 1\x7d" } }], [1]⟩
      (some ("\x7b\"a\": 1\x7d")) true true).1 = .ok false ∧
    (check_has_event
      ⟨[{ event_time := "t", event_num := 1, name := "E",
          data := some { uri := "", remote_address := "", headers := [], query := none,
                         body := "\x7b\"a\": 1\x7d" } }], [1]⟩
      (some ("\x7b\"a\": 1\x7d")) true false).1 = .ok true := by
  have h := claim1_consume_once
    { event_time := "t", event_num := 1, name := "E",
      data := some { uri := "", remote_address := "", headers := [], query := none,
                     body := "\x7b\"a\": 1\x7d" } }
    { uri := "", remote_address := "", headers := [], query := none,
      body := "\x7b\"a\": 1\x7d" }
    ("\x7b\"a\": 1\x7d") false true rfl (by rfl)
  exact ⟨h.1, h.2.2.1, h.2.2.2.2.1⟩

set_option maxRecDepth 100000 in
/-- Witness for C6: two stored events both match the pattern; the check marks
the earliest-arrived one (event number 1, not 2). -/
theorem claim6_arrival_order_witness :
    evMatches ("\x7b\"a\": 1\x7d")
      { event_time := "u", event_num := 2, name := "F",
        data := some { uri := "", remote_address := "", headers := [], query := none,
                       body := "\x7b\"a\": 1\x7d" } } = true ∧
    (check_has_event
      ⟨[{ event_time := "t", event_num := 1, name := "E",
          data := some { uri := "", remote_address := "", headers := [], query := none,
                         body := "\x7b\"a\": 1\x7d" } },
        { event_time := "u", event_num := 2, name := "F",
          data := some { uri := "", remote_address := "", headers := [], query := none,
                         body := "\x7b\"a\": 1\x7d" } }], []⟩
      (some ("\x7b\"a\": 1\x7d")) true true).2 =
      ⟨[{ event_time := "t", event_num := 1, name := "E",
          data := some { uri := "", remote_address := "", headers := [], query := none,
                         body := "\x7b\"a\": 1\x7d" } },
        { event_time := "u", event_num := 2, name := "F",
          data := some { uri := "", remote_address := "", headers := [], query := none,
                         body := "\x7b\"a\": 1\x7d" } }], [1]⟩ := by
  refine ⟨by rfl, ?_⟩
  exact (claim6_arrival_order []
    [{ event_time := "u", event_num := 2, name := "F",
       data := some { uri := "", remote_address := "", headers := [], query := none,
                      body := "\x7b\"a\": 1\x7d" } }]
    { event_time := "t", event_num := 1, name := "E",
      data := some { uri := "", remote_address := "", headers := [], query := none,
                     body := "\x7b\"a\": 1\x7d" } }
    ("\x7b\"a\": 1\x7d") true (by simp) (by rfl)).2

set_option maxRecDepth 100000 in
/-- Witness for C10: the pattern `[1, 2]` (valid JSON, not an object) is
accepted against the first stored event with parseable data. -/
theorem claim10_nonobject_pattern_witness :
    contains_json_data
      (model_dump_json { uri := "", remote_address := "", headers := [], query := none,
                         body := "\x7b\"a\": 1\x7d" }) ("[1, 2]") = true ∧
    (check_has_event
      ⟨[{ event_time := "t", event_num := 1, name := "E",
          data := some { uri := "", remote_address := "", headers := [], query := none,
                         body := "\x7b\"a\": 1\x7d" } }], []⟩
      (some ("[1, 2]")) true true).1 = .ok true := by
  have h := claim10_nonobject_pattern
    { uri := "", remote_address := "", headers := [], query := none,
      body := "\x7b\"a\": 1\x7d" }
    { event_time := "t", event_num := 1, name := "E",
      data := some { uri := "", remote_address := "", headers := [], query := none,
                     body := "\x7b\"a\": 1\x7d" } }
    [] true ("[1, 2]")
    (.cons ("uri") (.jstr "")
      (.cons ("remoteAddress") (.jstr "")
        (.cons ("headers") (.jobj .nil)
          (.cons ("query") .jnull
            (.cons ("body") (.jstr ("\x7b\"a\": 1\x7d")) .nil)))))
    ("\x7b\"a\": 1\x7d")
    (.jobj (.cons ("a") (.jnum 1) .nil))
    (.jarr (.cons (.jnum 1) (.cons (.jnum 2) .nil)))
    rfl (by rfl) (by rfl) (by rfl) (by rfl) (by rfl)
  exact ⟨h.1, h.2.1⟩

set_option maxRecDepth 100000 in
/-- Witness for C4: the characterization applied positively at a concrete
serialized event and pattern, and negatively at an unparseable event JSON. -/
theorem claim4_contains_conjunction_witness :
    contains_json_data
      (model_dump_json { uri := "", remote_address := "", headers := [], query := none,
                         body := "\x7b\"a\": 1\x7d" }) ("\x7b\"a\": 1\x7d") = true ∧
    contains_json_data ("junk") ("\x7b\"a\": 1\x7d") = false := by
  constructor
  · refine (claim4_contains_conjunction _ _).mpr
      ⟨.cons ("uri") (.jstr "")
        (.cons ("remoteAddress") (.jstr "")
          (.cons ("headers") (.jobj .nil)
            (.cons ("query") .jnull
              (.cons ("body") (.jstr ("\x7b\"a\": 1\x7d")) .nil)))),
       ("\x7b\"a\": 1\x7d"),
       .jobj (.cons ("a") (.jnum 1) .nil),
       .jobj (.cons ("a") (.jnum 1) .nil),
       by rfl, by rfl, by rfl, by rfl, ?_⟩
    intro skvs heq kv hkv
    cases heq
    simp [toListO] at hkv
    subst hkv
    rfl
  · cases hb : contains_json_data ("junk") ("\x7b\"a\": 1\x7d") with
    | false => rfl
    | true =>
      obtain ⟨ekvs, bs, bodyObj, sv, he, -, -, -, -⟩ :=
        (claim4_contains_conjunction ("junk") ("\x7b\"a\": 1\x7d")).mp hb
      rw [show json_loads ("junk") = none from rfl] at he
      exact Option.noConfusion he

/-- A missing `event_num` in the log, stated on the boolean `event_exists`. -/
theorem event_exists_false_iff (es : List Event) (n : Int) :
    event_exists es n = false ↔ n ∉ es.map (fun e => e.event_num) := by
  simp [event_exists, List.any_eq_true]

/-- Lemma: `add_events`'s loop preserves uniqueness of `event_num`s. -/
theorem addEventsList_nodup :
    ∀ (new es : List Event), (es.map (fun e => e.event_num)).Nodup →
      ((addEventsList es new).map (fun e => e.event_num)).Nodup := by
  intro new
  induction new with
  | nil => intro es h; simpa [addEventsList] using h
  | cons e rest ih =>
    intro es h
    rw [addEventsList]
    cases hex : event_exists es e.event_num with
    | true => simpa [hex] using ih es h
    | false =>
      simp only [hex, Bool.false_eq_true, if_false]
      refine ih (es ++ [e]) ?_
      rw [List.map_append, List.nodup_append]
      refine ⟨h, by simp, ?_⟩
      intro n hn hn2
      simp at hn2
      subst hn2
      exact (event_exists_false_iff es e.event_num).mp hex hn

/-- Lemma: `add_events`'s loop appends a sublist of the new batch, in order, after
the existing log. -/
theorem addEventsList_sublist :
    ∀ (new es : List Event), ∃ kept,
      addEventsList es new = es ++ kept ∧ kept.Sublist new := by
  intro new
  induction new with
  | nil =>
    intro es
    exact ⟨[], by simp [addEventsList], List.Sublist.refl []⟩
  | cons e rest ih =>
    intro es
    rw [addEventsList]
    cases hex : event_exists es e.event_num with
    | true =>
      obtain ⟨kept, hk1, hk2⟩ := ih es
      exact ⟨kept, by simpa [hex] using hk1, hk2.cons e⟩
    | false =>
      obtain ⟨kept, hk1, hk2⟩ := ih (es ++ [e])
      refine ⟨e :: kept, ?_, hk2.cons₂ e⟩
      simp only [hex, Bool.false_eq_true, if_false]
      rw [hk1, List.append_assoc]
      rfl

/-- One-event step of the `add_events` loop. -/
theorem addEventsList_one (es : List Event) (e : Event) :
    addEventsList es [e] = if event_exists es e.event_num then es else es ++ [e] := by
  rw [addEventsList]
  split <;> rfl

/-- The `add_events` loop processes concatenated batches sequentially, so
duplicates are rejected across calls exactly as within one call. -/
theorem addEventsList_append :
    ∀ (xs ys es : List Event),
      addEventsList es (xs ++ ys) = addEventsList (addEventsList es xs) ys := by
  intro xs
  induction xs with
  | nil => intro ys es; rfl
  | cons x xs ih =>
    intro ys es
    rw [List.cons_append, addEventsList, addEventsList]
    split
    · exact ih ys es
    · exact ih ys (es ++ [x])

/-- Offering the same `event_num` twice, within one call or across two calls,
retains only the first occurrence. -/
theorem addEventsList_dup_dropped (es : List Event) (e e' : Event)
    (h : e'.event_num = e.event_num) :
    addEventsList es [e, e'] = addEventsList es [e] ∧
    addEventsList (addEventsList es [e]) [e'] = addEventsList es [e] := by
  have hsplit : addEventsList es [e, e'] = addEventsList (addEventsList es [e]) [e'] := by
    rw [show [e, e'] = [e] ++ [e'] from rfl, addEventsList_append]
  have hmain : addEventsList (addEventsList es [e]) [e'] = addEventsList es [e] := by
    rw [addEventsList_one es e, addEventsList_one]
    cases hex : event_exists es e.event_num with
    | true =>
      simp only [hex, if_true]
      have : event_exists es e'.event_num = true := by rw [h]; exact hex
      simp [this]
    | false =>
      simp only [hex, Bool.false_eq_true, if_false]
      have : event_exists (es ++ [e]) e'.event_num = true := by
        simp [event_exists, h]
      simp [this]
  exact ⟨hsplit.trans hmain, hmain⟩

/-- C5: uniqueness of `event_num` in the store.  `add_events` preserves the
no-duplicate invariant of the log (so after any sequence of calls starting
from an empty store no two retained events share an `event_num`); the prior
log is preserved as a prefix and the accepted events are a sublist of the
batch in its order; and a second event with an already-offered `event_num`
(within one call or in a later call) is silently dropped. -/
theorem claim5_store_dedup :
    (∀ (st : EventStore) (new : List Event),
      (st.events.map (fun e => e.event_num)).Nodup →
      ((add_events st new).events.map (fun e => e.event_num)).Nodup) ∧
    (∀ (st : EventStore) (new : List Event), ∃ kept,
      (add_events st new).events = st.events ++ kept ∧ kept.Sublist new) ∧
    (∀ (st : EventStore) (e e' : Event), e'.event_num = e.event_num →
      (add_events st [e, e']).events = (add_events st [e]).events ∧
      (add_events (add_events st [e]) [e']).events = (add_events st [e]).events) ∧
    (∀ batches : List (List Event),
      ((batches.foldl add_events ⟨[], []⟩).events.map (fun e => e.event_num)).Nodup) := by
  refine ⟨?_, ?_, ?_, ?_⟩
  · intro st new h
    exact addEventsList_nodup new st.events h
  · intro st new
    exact addEventsList_sublist new st.events
  · intro st e e' h
    have hd := addEventsList_dup_dropped st.events e e' h
    constructor
    · exact hd.1
    · show addEventsList (addEventsList st.events [e]) [e'] = addEventsList st.events [e]
      exact hd.2
  · intro batches
    have hgen : ∀ (bs : List (List Event)) (st : EventStore),
        (st.events.map (fun e => e.event_num)).Nodup →
        ((bs.foldl add_events st).events.map (fun e => e.event_num)).Nodup := by
      intro bs
      induction bs with
      | nil => intro st h; simpa using h
      | cons b rest ih =>
        intro st h
        exact ih (add_events st b) (addEventsList_nodup b st.events h)
    exact hgen batches ⟨[], []⟩ (by simp)

/-- Witness for C5 at a concrete store and batch: the duplicate of event
number 1 is dropped, the log stays duplicate-free. -/
theorem claim5_store_dedup_witness :
    ((add_events ⟨[], []⟩
        [{ event_time := "t", event_num := 1, name := "A", data := none },
         { event_time := "u", event_num := 1, name := "B", data := none }]).events.map
      (fun e => e.event_num)).Nodup ∧
    (add_events ⟨[], []⟩
        [{ event_time := "t", event_num := 1, name := "A", data := none },
         { event_time := "u", event_num := 1, name := "B", data := none }]).events =
      (add_events ⟨[], []⟩
        [{ event_time := "t", event_num := 1, name := "A", data := none }]).events :=
  ⟨claim5_store_dedup.1 ⟨[], []⟩
      [{ event_time := "t", event_num := 1, name := "A", data := none },
       { event_time := "u", event_num := 1, name := "B", data := none }] (by simp),
   (claim5_store_dedup.2.2.1 ⟨[], []⟩
      { event_time := "t", event_num := 1, name := "A", data := none }
      { event_time := "u", event_num := 1, name := "B", data := none } (by rfl)).1⟩

/-- Membership in the failing-index list, with the running offset. -/
theorem failingIdxFrom_mem :
    ∀ (rs : List Bool) (i j : Nat),
      j ∈ failingIdxFrom i rs ↔ ∃ k, rs.get? k = some false ∧ j = i + k := by
  intro rs
  induction rs with
  | nil =>
    intro i j
    simp [failingIdxFrom]
  | cons b rest ih =>
    intro i j
    rw [failingIdxFrom]
    cases b with
    | true =>
      simp only [if_true]
      rw [ih (i+1) j]
      constructor
      · rintro ⟨k, hk, hj⟩
        exact ⟨k + 1, by simpa using hk, by omega⟩
      · rintro ⟨k, hk, hj⟩
        cases k with
        | zero => simp at hk
        | succ k => exact ⟨k, by simpa using hk, by omega⟩
    | false =>
      simp only [Bool.false_eq_true, if_false, List.mem_cons]
      rw [ih (i+1) j]
      constructor
      · rintro (hj | ⟨k, hk, hj⟩)
        · exact ⟨0, by simp, by omega⟩
        · exact ⟨k + 1, by simpa using hk, by omega⟩
      · rintro ⟨k, hk, hj⟩
        cases k with
        | zero => exact Or.inl (by omega)
        | succ k => exact Or.inr ⟨k, by simpa using hk, by omega⟩

/-- C7: background-check aggregation.  `await_all_event_checks` always leaves
both the thread list and the results list empty; it raises nothing exactly
when every recorded result is true; and when it raises, the reported list
contains exactly the indices whose recorded result is false. -/
theorem claim7_await_aggregation (vs : VerifierState) :
    ((await_all_event_checks vs).2.threads = [] ∧
      (await_all_event_checks vs).2.results = []) ∧
    ((await_all_event_checks vs).1 = none ↔ ∀ b ∈ vs.results, b = true) ∧
    (∀ l, (await_all_event_checks vs).1 = some l →
      ∀ j, j ∈ l ↔ vs.results.get? j = some false) := by
  refine ⟨⟨rfl, rfl⟩, ?_, ?_⟩
  · unfold await_all_event_checks
    dsimp only
    cases hf : failingIdxFrom 0 vs.results with
    | nil =>
      simp only [true_iff]
      intro b hb
      obtain ⟨k, hk⟩ := List.get?_of_mem hb
      cases hbv : b with
      | true => rfl
      | false =>
        subst hbv
        have : k ∈ failingIdxFrom 0 vs.results :=
          (failingIdxFrom_mem vs.results 0 k).mpr ⟨k, hk, by omega⟩
        rw [hf] at this
        simp at this
    | cons x xs =>
      simp only [reduceCtorEq, false_iff]
      intro hall
      have hx : x ∈ failingIdxFrom 0 vs.results := by rw [hf]; exact List.mem_cons_self x xs
      obtain ⟨k, hk, hj⟩ := (failingIdxFrom_mem vs.results 0 x).mp hx
      have : (false : Bool) = true := hall false (List.get?_mem hk)
      exact Bool.noConfusion this
  · intro l hl j
    unfold await_all_event_checks at hl
    dsimp only at hl
    cases hf : failingIdxFrom 0 vs.results with
    | nil => rw [hf] at hl; simp at hl
    | cons x xs =>
      rw [hf] at hl
      simp at hl
      subst hl
      rw [← hf, failingIdxFrom_mem vs.results 0 j]
      constructor
      · rintro ⟨k, hk, hj⟩
        have : j = k := by omega
        subst this
        exact hk
      · intro hj
        exact ⟨j, hj, by omega⟩

/-- Witness for C7: three recorded results with exactly one failure; the
raised list is `[1]`, and index 1 is indeed reported. -/
theorem claim7_await_aggregation_witness :
    (await_all_event_checks ⟨[7, 8, 9], [true, false, true]⟩).1 = some [1] ∧
    (await_all_event_checks ⟨[7, 8, 9], [true, false, true]⟩).2.threads = [] ∧
    (await_all_event_checks ⟨[7, 8, 9], [true, false, true]⟩).2.results = [] ∧
    (1 ∈ [1]) :=
  ⟨by rfl,
   (claim7_await_aggregation ⟨[7, 8, 9], [true, false, true]⟩).1.1,
   (claim7_await_aggregation ⟨[7, 8, 9], [true, false, true]⟩).1.2,
   ((claim7_await_aggregation ⟨[7, 8, 9], [true, false, true]⟩).2.2 [1] (by rfl) 1).mpr
     (by rfl)⟩

/-- A payload string that fails to parse contributes nothing to the batch. -/
theorem ingestPayload_bad (acc : List Event) (s : String) (h : json_loads s = none) :
    ingestPayload acc (Payload.raw s) = acc := by
  unfold ingestPayload
  dsimp only
  rw [h]

/-- Uniqueness invariant of the within-call de-duplication. -/
theorem dedupByNum_nodup :
    ∀ (evs : List Event) (seen : List Int),
      ((dedupByNum seen evs).map (fun e => e.event_num)).Nodup ∧
      (∀ x ∈ dedupByNum seen evs, x.event_num ∉ seen) := by
  intro evs
  induction evs with
  | nil => intro seen; simp [dedupByNum]
  | cons e rest ih =>
    intro seen
    rw [dedupByNum]
    cases hc : seen.contains e.event_num with
    | true => simpa using ih seen
    | false =>
      simp only [Bool.false_eq_true, if_false]
      obtain ⟨ihn, ihm⟩ := ih (e.event_num :: seen)
      constructor
      · rw [List.map_cons, List.nodup_cons]
        refine ⟨?_, ihn⟩
        intro hmem
        simp only [List.mem_map] at hmem
        obtain ⟨x, hx, hxn⟩ := hmem
        exact ihm x hx (by rw [hxn]; exact List.mem_cons_self _ _)
      · intro x hx
        rcases List.mem_cons.mp hx with hex | hx2
        · subst hex
          intro hmem
          simp at hc
          exact hc hmem
        · intro hmem
          exact ihm x hx2 (List.mem_cons_of_mem _ hmem)

/-- The de-duplicated batch is a sublist of the batch (order preserved). -/
theorem dedupByNum_sublist :
    ∀ (evs : List Event) (seen : List Int), (dedupByNum seen evs).Sublist evs := by
  intro evs
  induction evs with
  | nil => intro seen; simp [dedupByNum]
  | cons e rest ih =>
    intro seen
    rw [dedupByNum]
    cases hc : seen.contains e.event_num with
    | true => simpa using (ih seen).cons e
    | false =>
      simp only [Bool.false_eq_true, if_false]
      exact (ih (e.event_num :: seen)).cons₂ e

/-- Every offered `event_num` (not yet seen) is represented in the
de-duplicated batch, by its first occurrence. -/
theorem dedupByNum_represented :
    ∀ (evs : List Event) (seen : List Int) (e : Event),
      e ∈ evs → e.event_num ∉ seen →
      ∃ e', e' ∈ dedupByNum seen evs ∧ e'.event_num = e.event_num := by
  intro evs
  induction evs with
  | nil => intro seen e he; simp at he
  | cons x rest ih =>
    intro seen e he hns
    rw [dedupByNum]
    cases hc : seen.contains x.event_num with
    | true =>
      simp only [if_true]
      rcases List.mem_cons.mp he with hex | he2
      · subst hex
        simp at hc
        exact absurd hc hns
      · exact ih seen e he2 hns
    | false =>
      simp only [Bool.false_eq_true, if_false]
      rcases List.mem_cons.mp he with hex | he2
      · subst hex
        exact ⟨e, List.mem_cons_self _ _, rfl⟩
      · by_cases hnum : e.event_num = x.event_num
        · exact ⟨x, List.mem_cons_self _ _, hnum.symm⟩
        · obtain ⟨e', he', hn'⟩ := ih (x.event_num :: seen) e he2 (by
            intro hmem
            rcases List.mem_cons.mp hmem with h1 | h2
            · exact hnum h1
            · exact hns h2)
          exact ⟨e', List.mem_cons_of_mem _ he', hn'⟩

/-- C8: ingestion is total over malformed input.  A raw payload that fails to
parse is skipped and removing it from the batch changes nothing — every
well-formed payload in the batch is still processed identically; the returned
batch is de-duplicated by `event_num` with no two returned events sharing a
number, in batch order (a sublist), and every offered `event_num` is
represented by its first occurrence. -/
theorem claim8_ingest_total :
    (∀ (st : EventStore) (ps1 ps2 : List Payload) (s : String), json_loads s = none →
      ingest st (ps1 ++ Payload.raw s :: ps2) = ingest st (ps1 ++ ps2)) ∧
    (∀ evs : List Event, ((dedupByNum [] evs).map (fun e => e.event_num)).Nodup) ∧
    (∀ evs : List Event, (dedupByNum [] evs).Sublist evs) ∧
    (∀ (evs : List Event) (e : Event), e ∈ evs →
      ∃ e', e' ∈ dedupByNum [] evs ∧ e'.event_num = e.event_num) := by
  refine ⟨?_, ?_, ?_, ?_⟩
  · intro st ps1 ps2 s h
    unfold ingest
    rw [List.foldl_append, List.foldl_append, List.foldl_cons,
      ingestPayload_bad _ s h]
  · intro evs
    exact (dedupByNum_nodup evs []).1
  · intro evs
    exact dedupByNum_sublist evs []
  · intro evs e he
    exact dedupByNum_represented evs [] e he (by simp)

set_option maxRecDepth 400000 in
/-- Witness for C8: a batch with one well-formed envelope payload and one
unparseable payload; dropping the junk payload changes nothing, and a
duplicated `event_num` in the produced events is collapsed to the first. -/
theorem claim8_ingest_total_witness :
    ingest ⟨[], []⟩
      [Payload.raw ("\x7b\"events\": [\x7b\"name\": \"P\", \"event_num\": 1\x7d]\x7d"),
       Payload.raw ("junk")] =
      ingest ⟨[], []⟩
        [Payload.raw ("\x7b\"events\": [\x7b\"name\": \"P\", \"event_num\": 1\x7d]\x7d")] ∧
    ((dedupByNum []
        [{ event_time := "t", event_num := 1, name := "A", data := none },
         { event_time := "u", event_num := 1, name := "B", data := none }]).map
      (fun e => e.event_num)).Nodup ∧
    (∃ e', e' ∈ dedupByNum []
        [{ event_time := "t", event_num := 1, name := "A", data := none },
         { event_time := "u", event_num := 1, name := "B", data := none }] ∧
      e'.event_num =
        ({ event_time := "u", event_num := 1, name := "B", data := none } : Event).event_num) :=
  ⟨claim8_ingest_total.1 ⟨[], []⟩
      [Payload.raw ("\x7b\"events\": [\x7b\"name\": \"P\", \"event_num\": 1\x7d]\x7d")] []
      ("junk") (by rfl),
   claim8_ingest_total.2.1
      [{ event_time := "t", event_num := 1, name := "A", data := none },
       { event_time := "u", event_num := 1, name := "B", data := none }],
   claim8_ingest_total.2.2.2
      [{ event_time := "t", event_num := 1, name := "A", data := none },
       { event_time := "u", event_num := 1, name := "B", data := none }]
      { event_time := "u", event_num := 1, name := "B", data := none } (by simp)⟩

/-- A list is a prefix of itself extended. -/
theorem isPrefixChars_append (xs ys : List Char) : isPrefixChars xs (xs ++ ys) = true := by
  induction xs with
  | nil => rfl
  | cons c cs ih => simp [isPrefixChars, ih]

/-- A substring search finds the needle at the front. -/
theorem containsSubChars_self_append (n tail : List Char) :
    containsSubChars n (n ++ tail) = true := by
  cases n with
  | nil =>
    cases tail with
    | nil => rfl
    | cons c t => simp [containsSubChars, isPrefixChars]
  | cons c cs =>
    rw [List.cons_append, containsSubChars]
    simp [isPrefixChars, isPrefixChars_append]

/-- A substring search is preserved by prepending. -/
theorem containsSubChars_append_left :
    ∀ (pre n h : List Char), containsSubChars n h = true →
      containsSubChars n (pre ++ h) = true := by
  intro pre
  induction pre with
  | nil => intro n h hh; simpa using hh
  | cons c rest ih =>
    intro n h hh
    rw [List.cons_append, containsSubChars]
    rw [ih n h hh]
    simp

/-- Python's `in` succeeds on any explicit decomposition. -/
theorem strContains_of_parts (hay m : String) (pre post : List Char)
    (h : hay.data = pre ++ m.data ++ post) : strContains hay m = true := by
  unfold strContains
  rw [h, List.append_assoc]
  exact containsSubChars_append_left pre _ _ (containsSubChars_self_append m.data post)

/-- Each member's image occurs inside a join (as a character decomposition). -/
theorem joinWith_mem_decomp :
    ∀ (fs : List String) (sep : String) (g : String → String) (m : String), m ∈ fs →
      ∃ pre post, (joinWith sep (fs.map g)).data = pre ++ (g m).data ++ post := by
  intro fs
  induction fs with
  | nil => intro sep g m hm; simp at hm
  | cons x rest ih =>
    intro sep g m hm
    cases rest with
    | nil =>
      have hx : m = x := by simpa using hm
      subst hx
      exact ⟨[], [], by simp [joinWith]⟩
    | cons y tl =>
      rcases List.mem_cons.mp hm with hex | hm2
      · subst hex
        refine ⟨[], (sep ++ joinWith sep ((y :: tl).map g)).data, ?_⟩
        simp [joinWith, String.data_append, List.append_assoc]
      · obtain ⟨pre, post, hpp⟩ := ih sep g m hm2
        refine ⟨(g x).data ++ sep.data ++ pre, post, ?_⟩
        rw [List.map_cons] at hpp
        simp [joinWith, String.data_append, hpp, List.append_assoc]

/-- C9: `SoftAssert` scope-exit behavior.  With an exception already
propagating, the context manager does not suppress it (the original exception
propagates unchanged); with no exception in flight, a combined error listing
all recorded failure messages is raised iff at least one failure was
recorded (each recorded message occurs verbatim inside the combined
message), and nothing is raised when none were. -/
theorem claim9_soft_assert_exit :
    (∀ (sa : SoftAssert) (e : String), softAssertExit sa (some e) = .propagated e) ∧
    (∀ sa : SoftAssert, softAssertExit sa none = .exitedClean ↔ sa.failures = []) ∧
    (∀ sa : SoftAssert, sa.failures ≠ [] →
      softAssertExit sa none = .raisedCombined (combinedFailureMsg sa.failures)) ∧
    (∀ (sa : SoftAssert) (m : String), m ∈ sa.failures →
      strContains (combinedFailureMsg sa.failures) m = true) := by
  refine ⟨fun sa e => rfl, ?_, ?_, ?_⟩
  · intro sa
    unfold softAssertExit raise_if_any
    cases hfs : sa.failures with
    | nil => simp
    | cons x rest => simp
  · intro sa h
    unfold softAssertExit raise_if_any
    cases hfs : sa.failures with
    | nil => exact absurd hfs h
    | cons x rest => rfl
  · intro sa m hm
    obtain ⟨pre, post, hpp⟩ :=
      joinWith_mem_decomp sa.failures ("\n") (fun f => "- " ++ f) m hm
    unfold combinedFailureMsg
    refine strContains_of_parts _ _
      (("Soft assertion failures (total " ++ toString sa.failures.length ++ "):\n").data ++
        pre ++ ("- ").data) post ?_
    rw [String.data_append]
    rw [hpp]
    have hdm : (((fun f => "- " ++ f) m) : String).data = ("- ").data ++ m.data := by
      simp [String.data_append]
    rw [hdm]
    simp [List.append_assoc]

/-- Witness for C9 at a concrete scope. -/
theorem claim9_soft_assert_exit_witness :
    softAssertExit ⟨["oops"]⟩ (some ("boom")) = .propagated ("boom") ∧
    softAssertExit ⟨["oops"]⟩ none =
      .raisedCombined (combinedFailureMsg ["oops"]) ∧
    (softAssertExit ⟨[]⟩ none = .exitedClean) ∧
    strContains (combinedFailureMsg ["oops"]) ("oops") = true :=
  ⟨claim9_soft_assert_exit.1 ⟨["oops"]⟩ ("boom"),
   claim9_soft_assert_exit.2.2.1 ⟨["oops"]⟩ (by simp),
   (claim9_soft_assert_exit.2.1 ⟨[]⟩).mpr rfl,
   claim9_soft_assert_exit.2.2.2 ⟨["oops"]⟩ ("oops") (by simp)⟩
